import Mathlib

/-!
# Verification of the kiutils S-expression engine

Shallow embedding of `src/kiutils/utils/sexpr.py` (tokenizer `term_regex` +
`parse_sexp`, `parse_bool`, `val_to_str`/`maybe_to_sexpr`, the generic
`SexprAuto` marshaller) together with the hand-written `Segment` decoder from
`src/kiutils/items/brditems.py` and the `SexprAuto`-based `GrCurve` class from
`src/kiutils/items/gritems.py`.

Python runtime values produced by the parser are integers, floats, strings
(quoted strings and bare symbols both become `str`) and lists; floats are
modelled exactly as rationals.
-/

namespace Kiutils

/-- A parsed S-expression value, mirroring the Python values built by
`parse_sexp`: `int`, `float` (modelled as `ℚ`), `str` (covering both quoted
strings and bare symbols, which Python does not distinguish after parsing),
and `list`. -/
inductive SExp where
  | int (n : Int)
  | float (q : ℚ)
  | str (s : String)
  | list (xs : List SExp)
deriving Repr

mutual

/-- Boolean equality on `SExp` (needed because `deriving DecidableEq` does not
handle the nested `List`). -/
def SExp.beq : SExp → SExp → Bool
  | .int a, .int b => a == b
  | .float a, .float b => a == b
  | .str a, .str b => a == b
  | .list a, .list b => SExp.beqList a b
  | _, _ => false

/-- Pointwise `SExp.beq` on lists. -/
def SExp.beqList : List SExp → List SExp → Bool
  | [], [] => true
  | a :: as, b :: bs => SExp.beq a b && SExp.beqList as bs
  | _, _ => false

end

mutual

theorem SExp.beq_iff : ∀ a b : SExp, SExp.beq a b = true ↔ a = b
  | .int a, .int b => by simp [SExp.beq]
  | .float a, .float b => by simp [SExp.beq]
  | .str a, .str b => by simp [SExp.beq]
  | .list a, .list b => by
      simp only [SExp.beq]
      rw [SExp.beqList_iff a b]
      simp
  | .int _, .float _ => by simp [SExp.beq]
  | .int _, .str _ => by simp [SExp.beq]
  | .int _, .list _ => by simp [SExp.beq]
  | .float _, .int _ => by simp [SExp.beq]
  | .float _, .str _ => by simp [SExp.beq]
  | .float _, .list _ => by simp [SExp.beq]
  | .str _, .int _ => by simp [SExp.beq]
  | .str _, .float _ => by simp [SExp.beq]
  | .str _, .list _ => by simp [SExp.beq]
  | .list _, .int _ => by simp [SExp.beq]
  | .list _, .float _ => by simp [SExp.beq]
  | .list _, .str _ => by simp [SExp.beq]

theorem SExp.beqList_iff : ∀ a b : List SExp, SExp.beqList a b = true ↔ a = b
  | [], [] => by simp [SExp.beqList]
  | a :: as, b :: bs => by
      simp only [SExp.beqList, Bool.and_eq_true]
      rw [SExp.beq_iff a b, SExp.beqList_iff as bs]
      simp
  | [], _ :: _ => by simp [SExp.beqList]
  | _ :: _, [] => by simp [SExp.beqList]

end

instance : DecidableEq SExp := fun a b => decidable_of_iff _ (SExp.beq_iff a b)

/-! ## Tokenizer (`term_regex` + `re.finditer`, sexpr.py lines 25-32)

The verbose regex has five alternatives, tried in order at each position after
skipping whitespace: `(`, `)`, a number (`[+-]?\d+\.\d+(?=[\ \)])` or
`\-?\d+(?=[\ \)])`, i.e. the lookahead accepts only a literal space or a
closing parenthesis), a quoted string (whose closing quote must be followed by
`)` or any whitespace), and a bare-symbol run `[^(^)\s]+` (note the character
class also excludes the caret). A position at which no alternative matches is
skipped by `finditer`. -/

/-- Python regex `\s` on the characters relevant here. -/
def pySpace (c : Char) : Bool :=
  c = ' ' || c = '\t' || c = '\n' || c = '\r' || c = '\x0b' || c = '\x0c'

/-- The bare-symbol character class `[^(^)\s]`. -/
def symChar (c : Char) : Bool :=
  !(pySpace c) && c != '(' && c != ')' && c != '^'

/-- Numeric value of a decimal digit character. -/
def digitVal (c : Char) : ℕ := c.toNat - 48

/-- Decimal reading of a digit run (what `float(value)` / `int` see). -/
def digitsToNat (l : List Char) : ℕ := l.foldl (fun a c => 10 * a + digitVal c) 0

/-- The lookahead `(?=[\ \)])` of the numeric alternatives: the next character
must be a literal space or `)` (so it fails at end of input and on any other
whitespace such as a newline). -/
def numLookahead : List Char → Bool
  | c :: _ => c = ' ' || c = ')'
  | [] => false

/-- Strip the optional `[+-]` sign of the first numeric alternative. -/
def stripSignPM : List Char → Bool × List Char
  | '+' :: r => (false, r)
  | '-' :: r => (true, r)
  | r => (false, r)

/-- Strip the optional `\-` sign of the second numeric alternative (a plus
sign is not allowed there). -/
def stripSignM : List Char → Bool × List Char
  | '-' :: r => (true, r)
  | r => (false, r)

/-- Value of a signed decimal with integer digits `A` and fraction digits
`F` (what `float(value)` computes on the matched text, exactly). -/
def decValue (neg : Bool) (A F : List Char) : ℚ :=
  let v : ℚ := (digitsToNat A : ℚ) + (digitsToNat F : ℚ) / ((10 : ℚ) ^ F.length)
  if neg then -v else v

/-- Value of a signed integer digit run. -/
def intValue (neg : Bool) (A : List Char) : ℚ :=
  if neg then -(digitsToNat A : ℚ) else (digitsToNat A : ℚ)

/-- Body of the first numeric alternative `\d+\.\d+(?=[\ \)])` after the
sign.  Backtracking inside the digit runs can never help (a shorter run
leaves a digit in the lookahead position), so the maximal digit runs are
taken. -/
def matchNumDottedCore (neg : Bool) (cs1 : List Char) : Option (ℚ × List Char) :=
  if (cs1.takeWhile Char.isDigit).isEmpty then none
  else
    match cs1.dropWhile Char.isDigit with
    | c :: r2 =>
      if c = '.' then
        if (r2.takeWhile Char.isDigit).isEmpty then none
        else if numLookahead (r2.dropWhile Char.isDigit) then
          some (decValue neg (cs1.takeWhile Char.isDigit) (r2.takeWhile Char.isDigit),
            r2.dropWhile Char.isDigit)
        else none
      else none
    | [] => none

/-- First numeric alternative `[+-]?\d+\.\d+(?=[\ \)])`. -/
def matchNumDotted (cs : List Char) : Option (ℚ × List Char) :=
  matchNumDottedCore (stripSignPM cs).1 (stripSignPM cs).2

/-- Body of the second numeric alternative `\d+(?=[\ \)])` after the sign. -/
def matchNumIntCore (neg : Bool) (cs1 : List Char) : Option (ℚ × List Char) :=
  if (cs1.takeWhile Char.isDigit).isEmpty then none
  else if numLookahead (cs1.dropWhile Char.isDigit) then
    some (intValue neg (cs1.takeWhile Char.isDigit), cs1.dropWhile Char.isDigit)
  else none

/-- Second numeric alternative `\-?\d+(?=[\ \)])`. -/
def matchNumInt (cs : List Char) : Option (ℚ × List Char) :=
  matchNumIntCore (stripSignM cs).1 (stripSignM cs).2

/-- The `num` group of `term_regex`: first alternative, then the second; the
`Bool` records whether the dotted alternative matched. -/
def matchNum (cs : List Char) : Option (ℚ × Bool × List Char) :=
  match matchNumDotted cs with
  | some (q, r) => some (q, true, r)
  | none =>
    match matchNumInt cs with
    | some (q, r) => some (q, false, r)
    | none => none

/-- Candidate `(content, rest-after-closing-quote)` pairs for the quoted-string
alternative `"(?:[^"]|(?<=\\)")*"(?:(?=\))|(?=\s))`, listed in increasing
content length. A quote preceded by a backslash can be consumed as content
(continuing the scan) or serve as the closing quote; an unescaped quote can
only close. Greedy matching with backtracking selects the last candidate whose
lookahead succeeds. -/
def sqCandidates (prev : Char) (acc : List Char) : List Char → List (List Char × List Char)
  | [] => []
  | c :: r =>
    if c = '"' then
      if prev = '\\' then (acc, r) :: sqCandidates c (acc ++ [c]) r
      else [(acc, r)]
    else sqCandidates c (acc ++ [c]) r

/-- Lookahead after the closing quote: `)` or any whitespace. -/
def sqLookahead : List Char → Bool
  | c :: _ => c = ')' || pySpace c
  | [] => false

/-- The unescaping `value[1:-1].replace('\\"', '"')` performed by `parse_sexp`
on a quoted-string token (left-to-right, non-overlapping). -/
def unescapeChars : List Char → List Char
  | [] => []
  | [c] => [c]
  | c :: c2 :: r2 =>
    if c = '\\' then
      if c2 = '"' then '"' :: unescapeChars r2 else c :: unescapeChars (c2 :: r2)
    else c :: unescapeChars (c2 :: r2)

/-- Try the quoted-string alternative at the current position. -/
def trySq (cs : List Char) : Option (List Char × List Char) :=
  match cs with
  | c :: rest =>
    if c = '"' then
      match ((sqCandidates '"' [] rest).filter fun p => sqLookahead p.2).getLast? with
      | some (content, r) => some (unescapeChars content, r)
      | none => none
    else none
  | [] => none

/-- A lexical token: brackets, a number, a quoted string (already unescaped),
or a bare symbol. -/
inductive Tok where
  | lparen
  | rparen
  | num (q : ℚ)
  | sq (s : List Char)
  | sym (s : List Char)
deriving DecidableEq, Repr

/-- One `finditer` pass over the input, fuelled for structural recursion (each
step consumes at least one character, so `cs.length` fuel suffices; see
`tokenizeF_mono`). -/
def tokenizeF : ℕ → List Char → List Tok
  | 0, _ => []
  | _, [] => []
  | fuel + 1, c :: rest =>
    if pySpace c then tokenizeF fuel rest
    else if c = '(' then .lparen :: tokenizeF fuel rest
    else if c = ')' then .rparen :: tokenizeF fuel rest
    else
      match matchNum (c :: rest) with
      | some (q, _, r) => .num q :: tokenizeF fuel r
      | none =>
        match trySq (c :: rest) with
        | some (s, r) => .sq s :: tokenizeF fuel r
        | none =>
          if symChar c then
            .sym (c :: rest.takeWhile symChar) :: tokenizeF fuel (rest.dropWhile symChar)
          else tokenizeF fuel rest

/-- The token stream of an input. -/
def tokenize (cs : List Char) : List Tok := tokenizeF cs.length cs

/-! ## `parse_sexp` (sexpr.py lines 38-66) -/

/-- How `parse_sexp` can fail: the two `assert`s about bracket nesting
(`AssertionError`), and the final `out[0]` on an empty result
(`IndexError`). -/
inductive PErr where
  | unbalanced
  | noTerm
deriving DecidableEq, Repr

/-- The token loop of `parse_sexp`: a stack of in-progress lists plus the
current list `out`.  `(` pushes, `)` asserts a non-empty stack and appends the
closed list, a number is converted with `float` and demoted to `int` when its
value is integral (`v.is_integer()`), and strings/symbols are appended as
Python strings.  At the end the stack must be empty. -/
def runToks : List Tok → List (List SExp) → List SExp → Except PErr (List SExp)
  | [], stack, out => if stack.isEmpty then .ok out else .error .unbalanced
  | .lparen :: ts, stack, out => runToks ts (out :: stack) []
  | .rparen :: ts, stack, out =>
    match stack with
    | [] => .error .unbalanced
    | s :: st => runToks ts st (s ++ [SExp.list out])
  | .num q :: ts, stack, out =>
    runToks ts stack (out ++ [if q.den = 1 then SExp.int q.num else SExp.float q])
  | .sq s :: ts, stack, out => runToks ts stack (out ++ [SExp.str ⟨s⟩])
  | .sym s :: ts, stack, out => runToks ts stack (out ++ [SExp.str ⟨s⟩])

/-- `parse_sexp(sexp)`: tokenize, run the loop, and return `out[0]` (an
`IndexError`, modelled as `PErr.noTerm`, when no top-level term was
produced; any further top-level terms are silently ignored). -/
def parse_sexp (s : String) : Except PErr SExp :=
  match runToks (tokenize s.data) [] [] with
  | .error e => .error e
  | .ok [] => .error .noTerm
  | .ok (t :: _) => .ok t

/-! ## `parse_bool` and small Python helpers -/

/-- `parse_bool` (sexpr.py lines 69-74): a bare string is true; a length-one
list is true; otherwise `arr[1]` must equal `"yes"` or `"true"`. An empty
list raises (`arr[1]` IndexError), a number raises (`len` TypeError). -/
def parse_bool : SExp → Option Bool
  | .str _ => some true
  | .list [] => none
  | .list [_] => some true
  | .list (_ :: v :: _) => some (v == SExp.str "yes" || v == SExp.str "true")
  | .int _ => none
  | .float _ => none

/-- Python `item[0]` on a parsed value: first element of a list, first
character of a string (a 1-character string); raises on an empty list or
string and on numbers. -/
def pyIdx0 : SExp → Option SExp
  | .list (x :: _) => some x
  | .list [] => none
  | .str s =>
    match s.data with
    | c :: _ => some (.str ⟨[c]⟩)
    | [] => none
  | _ => none

/-- Python `item[1]`. -/
def pyIdx1 : SExp → Option SExp
  | .list (_ :: x :: _) => some x
  | .list _ => none
  | .str s =>
    match s.data with
    | _ :: c :: _ => some (.str ⟨[c]⟩)
    | _ => none
  | _ => none

/-! ## Decimal rendering helpers (for `val_to_str` and Python `str`) -/

/-- Decimal digits of `n`, most significant first, fuelled for structural
recursion (`n` itself is always enough fuel). -/
def natCharsAux : ℕ → ℕ → List Char
  | 0, _ => []
  | fuel + 1, n =>
    if n = 0 then []
    else natCharsAux fuel (n / 10) ++ [Char.ofNat (n % 10 + 48)]

/-- Decimal representation of a natural number. -/
def natChars (n : ℕ) : List Char :=
  if n = 0 then ['0'] else natCharsAux n n

/-- Decimal representation of an integer. -/
def intChars (n : ℤ) : List Char :=
  (if n < 0 then ['-'] else []) ++ natChars n.natAbs

/-- Python `str.rstrip` with a single strip character. -/
def rstrip (c : Char) (l : List Char) : List Char :=
  (l.reverse.dropWhile fun x => x = c).reverse

/-- Round half to even (the tie rule of Python `round` and of `%.Nf`
formatting), yielding an integer. -/
def rhe (x : ℚ) : ℤ :=
  let f := ⌊x⌋
  let r := x - (f : ℚ)
  if r < 1 / 2 then f
  else if 1 / 2 < r then f + 1
  else if f % 2 = 0 then f else f + 1

/-- Python `round(val, p)` on the exact rational model. -/
def pyRound (p : ℕ) (q : ℚ) : ℚ := (rhe (q * ((10 : ℚ) ^ p)) : ℚ) / ((10 : ℚ) ^ p)

/-- Left-pad a digit run with zeros to width `k`. -/
def padLeftZeros (k : ℕ) (l : List Char) : List Char :=
  List.replicate (k - l.length) '0' ++ l

/-- Fixed-point formatting `f"{x:.pf}"` for `p ≥ 1` (the code never formats
with precision 0: the default is 6 and a 0 precision override is falsy). -/
def fixedChars (p : ℕ) (x : ℚ) : List Char :=
  let n := rhe (x * ((10 : ℚ) ^ p))
  let a := n.natAbs / 10 ^ p
  let b := n.natAbs % 10 ^ p
  (if n < 0 then ['-'] else []) ++ natChars a ++ '.' :: padLeftZeros p (natChars b)

/-- A Python float: finite (modelled exactly as a rational) or non-finite. -/
inductive PFloat where
  | finite (q : ℚ)
  | nan
  | inf
  | ninf
deriving DecidableEq, Repr

/-- The characters produced by `f"{round(val,6):.6f}"`; a non-finite value
formats as `nan`, `inf` or `-inf` (no exception is raised). -/
def floatFmt6 : PFloat → List Char
  | .finite q => fixedChars 6 (pyRound 6 q)
  | .nan => "nan".data
  | .inf => "inf".data
  | .ninf => "-inf".data

/-- The float branch of `val_to_str` (sexpr.py lines 115-116):
`f"{round(val,6):.6f}".rstrip("0").rstrip(".")`. -/
def val_to_str_float (x : PFloat) : String :=
  ⟨rstrip '.' (rstrip '0' (floatFmt6 x))⟩

/-- The precision-override branch of `SexprAuto._sexpr_inter_tuple`
(sexpr.py lines 293-296): `Rstr(f"{val:.{precision}f}")`, emitted verbatim,
with no stripping of trailing zeros. -/
def sexpr_inter_tuple_precision (p : ℕ) (x : PFloat) : String :=
  match x with
  | .finite q => ⟨fixedChars p q⟩
  | .nan => "nan"
  | .inf => "inf"
  | .ninf => "-inf"

/-- The bool branch of `val_to_str` (sexpr.py lines 93-97). -/
def val_to_str_bool (b : Bool) : String := if b then "yes" else "no"

/-- The escaping `val.replace('"', '\\"')` of the str branch of
`val_to_str`. -/
def escapeChars : List Char → List Char
  | '"' :: r => '\\' :: '"' :: escapeChars r
  | c :: r => c :: escapeChars r
  | [] => []

/-- The str branch of `val_to_str` (sexpr.py lines 119-121): escape inner
quotes and wrap in double quotes. -/
def val_to_str_str (s : String) : String := ⟨'"' :: (escapeChars s.data ++ ['"'])⟩

/-! ## Python `str()` / `float()` on parsed values -/

/-- Fractional decimal digits of `num/den` by long division (fuelled). Only
used to approximate Python `str()` on a float; no theorem below exercises
it. -/
def fracDigits : ℕ → ℕ → ℕ → List Char
  | 0, _, _ => []
  | fuel + 1, num, den =>
    if den = 0 then []
    else if num = 0 then []
    else Char.ofNat (10 * num / den + 48) :: fracDigits fuel (10 * num % den) den

/-- Approximation of Python `str()` on a finite float (shortest-repr details
are irrelevant here: no theorem below exercises this function). -/
def pyStrFloat (q : ℚ) : String :=
  let sign : List Char := if q < 0 then ['-'] else []
  let a := q.num.natAbs / q.den
  let fr := rstrip '0' (fracDigits 32 (q.num.natAbs % q.den) q.den)
  ⟨sign ++ natChars a ++ '.' :: (if fr.isEmpty then ['0'] else fr)⟩

/-- An ASCII single quote (used only by the `repr` approximation below). -/
def sQuote : String := ⟨[Char.ofNat 39]⟩

/-- Approximation of Python `repr()` on parsed values (used by `str()` on a
list; no theorem below exercises it). -/
def pyRepr : SExp → String
  | .str s => sQuote ++ s ++ sQuote
  | .int n => ⟨intChars n⟩
  | .float q => pyStrFloat q
  | .list xs => "[" ++ ", ".intercalate (xs.attach.map fun x => pyRepr x.1) ++ "]"
decreasing_by
  have := List.sizeOf_lt_of_mem x.2
  simp only [Kiutils.SExp.list.sizeOf_spec]
  omega

/-- Python `str()` on a parsed value. -/
def pyStr : SExp → String
  | .str s => s
  | .int n => ⟨intChars n⟩
  | .float q => pyStrFloat q
  | .list xs => pyRepr (.list xs)

/-- The `cls == str` branch of the generic `from_sexpr` (sexpr.py lines
179-183): concatenate `str(i)` over the elements. -/
def concatPyStr (l : List SExp) : String := l.foldl (fun a i => a ++ pyStr i) ""

/-- Python `float(x)` on a parsed decimal-literal string (only plain decimal
literals are modelled; no theorem below feeds a string here). -/
def pyFloatOfChars (cs : List Char) : Option ℚ :=
  let p : Bool × List Char :=
    match cs with
    | '+' :: r => (true, r)
    | '-' :: r => (true, r)
    | r => (false, r)
  let neg : Bool := match cs with | '-' :: _ => true | _ => false
  let d1 := p.2.takeWhile Char.isDigit
  let r1 := p.2.dropWhile Char.isDigit
  if d1.isEmpty then none else
    match r1 with
    | [] => some (if neg then -(digitsToNat d1 : ℚ) else (digitsToNat d1 : ℚ))
    | '.' :: r2 =>
      let d2 := r2.takeWhile Char.isDigit
      let r3 := r2.dropWhile Char.isDigit
      if r3.isEmpty then
        let v : ℚ := (digitsToNat d1 : ℚ) + (digitsToNat d2 : ℚ) / ((10 : ℚ) ^ d2.length)
        some (if neg then -v else v)
      else none
    | _ => none

/-- The `cls == int or cls == float` branch of the generic `from_sexpr`
(sexpr.py lines 192-193) specialised to `float`, applied to one element. -/
def pyFloat : SExp → Option ℚ
  | .int n => some n
  | .float q => some q
  | .str s => pyFloatOfChars s.data
  | .list _ => none

/-! ## The `Segment` decoder (brditems.py lines 784-843)

`Segment.from_sexpr` is hand-written. Fields are stored as whatever parsed
value `item[1]` holds (Python is dynamically typed), so the record fields are
modelled as `SExp`. `Position` lives in `kiutils/items/common.py`, which is
not under `src/`. -/

/-- Modelled from the spec: `Position` belongs to the out-of-scope schema
catalog (`kiutils/items/common.py`, absent from `src/`); §8 of the spec fixes
its decode on the inputs used here, `(start 1 2)` decodes to `start=(1,2)`,
i.e. the two elements after the head are stored. -/
structure Position where
  X : SExp := .int 0
  Y : SExp := .int 0
deriving DecidableEq, Repr

/-- Modelled from the spec: decode of a `Position` reads the two values after
the head symbol. -/
def Position.from_sexpr : SExp → Option Position
  | .list (_ :: x :: y :: _) => some ⟨x, y⟩
  | _ => none

/-- The `segment` record with its dataclass defaults (brditems.py lines
784-812). -/
structure Segment where
  start : Position := {}
  end_ : Position := {}
  width : SExp := .float (1 / 10)
  layer : SExp := .str "F.Cu"
  locked : Bool := false
  net : SExp := .int 0
  uuid : SExp := .str ""
deriving DecidableEq, Repr

/-- One iteration of the `for item in exp:` loop of `Segment.from_sexpr`
(brditems.py lines 834-843). Every branch tests `item[0]`, so that indexing
is evaluated once; the seven `if`s are independent but their names are
pairwise distinct. -/
def segItem (obj : Segment) (item : SExp) : Option Segment := do
  let h ← pyIdx0 item
  let obj ← if h = SExp.str "locked" then
      (parse_bool item).map fun b => { obj with locked := b }
    else some obj
  let obj ← if h = SExp.str "start" then
      (Position.from_sexpr item).map fun p => { obj with start := p }
    else some obj
  let obj ← if h = SExp.str "end" then
      (Position.from_sexpr item).map fun p => { obj with end_ := p }
    else some obj
  let obj ← if h = SExp.str "width" then
      (pyIdx1 item).map fun v => { obj with width := v }
    else some obj
  let obj ← if h = SExp.str "layer" then
      (pyIdx1 item).map fun v => { obj with layer := v }
    else some obj
  let obj ← if h = SExp.str "net" then
      (pyIdx1 item).map fun v => { obj with net := v }
    else some obj
  let obj ← if h = SExp.str "uuid" then
      (pyIdx1 item).map fun v => { obj with uuid := v }
    else some obj
  return obj

/-- The loop of `Segment.from_sexpr` over all of `exp` (the head element
included, exactly as `for item in exp:` does; the head string is harmless
since its first character matches no field name). -/
def segLoop : List SExp → Segment → Option Segment
  | [], obj => some obj
  | item :: rest, obj => (segItem obj item).bind (segLoop rest)

/-- `Segment.from_sexpr` (brditems.py lines 814-843): requires a list whose
first element equals `'segment'` (otherwise `Exception` is raised, including
the `IndexError` on an empty list), then runs the item loop. -/
def Segment.from_sexpr : SExp → Option Segment
  | .list [] => none
  | .list (x :: rest) =>
    if x = SExp.str "segment" then segLoop (x :: rest) {} else none
  | _ => none

/-! ## The `GrCurve` class (gritems.py lines 640-671), decoded and encoded by
the generic `SexprAuto` engine (sexpr.py lines 198-325)

`GrCurve` declares `sexpr_prefix = "gr_curve"` (a plain string, although the
base class declares a list of strings), no positional arguments, no field
metadata (no aliases, no case conversion, no `flatten`, no `precision`), and
fields `locked : Optional[bool]`, `pts : List[Coordinate2D]`,
`width : Optional[float]`, `stroke : Optional[Stroke]`,
`layer : Optional[str]`, `uuid : Optional[str]` in that order. `Coordinate2D`
and `Stroke` live in `kiutils/items/common.py`, which is not under `src/`;
neither carries a `sexpr_prefix` class attribute, so every
`getattr(…, "sexpr_prefix", [])` consulted by the engine for `GrCurve`
evaluates to `[]`. -/

/-- Modelled from the spec: `Coordinate2D` belongs to the out-of-scope schema
catalog (common.py, absent from `src/`); modelled as a record of its raw
parsed term. -/
structure Coordinate2D where
  raw : SExp
deriving DecidableEq, Repr

/-- Modelled from the spec: decode of a catalog type stores its term. -/
def Coordinate2D.from_sexpr (e : SExp) : Option Coordinate2D := some ⟨e⟩

/-- Modelled from the spec: encode of a `(xy …)` point; §4.4 of the spec says
a collection element is emitted as one sibling list per element. -/
def Coordinate2D.to_sexpr (c : Coordinate2D) : String :=
  match c.raw with
  | .list (_ :: rest) => "(xy" ++ (rest.map fun e => " " ++ pyStr e).foldl (· ++ ·) "" ++ ")"
  | e => pyStr e

/-- Modelled from the spec: `Stroke` belongs to the out-of-scope schema
catalog (common.py, absent from `src/`); modelled as a record of its raw
parsed term. -/
structure Stroke where
  raw : SExp
deriving DecidableEq, Repr

/-- Modelled from the spec: decode of a catalog type stores its term. -/
def Stroke.from_sexpr (e : SExp) : Option Stroke := some ⟨e⟩

/-- Modelled from the spec: encode of a stroke record re-emits its term. -/
def Stroke.to_sexpr (st : Stroke) : String := pyStr st.raw

/-- The `gr_curve` record with its dataclass defaults. -/
structure GrCurve where
  locked : Option Bool := none
  pts : List Coordinate2D := []
  width : Option ℚ := none
  stroke : Option Stroke := none
  layer : Option String := none
  uuid : Option String := none
deriving DecidableEq, Repr

/-- One iteration of the `for item in exp[1:]:` loop of
`SexprAuto.from_sexpr` (sexpr.py lines 234-276) specialised to `GrCurve`:
no positional slots, `flags = ["locked"]` (the only `bool`/`Optional[bool]`
field), then the field loop in declaration order matching `item[0]` against
the serialized names (all sexpr-prefix lists being empty, see above).
A bare string is checked against the flags before the field loop; in the
field loop `item[0]` of a string is its first character (never equal to a
multi-character name) and raises on an empty string; `item[0]` of a number
raises `TypeError`. -/
def grCurveItem (obj : GrCurve) (item : SExp) : Option GrCurve :=
  match item with
  | .str s =>
    if s = "locked" then some { obj with locked := some true }
    else if s.isEmpty then none
    else some obj
  | .int _ => none
  | .float _ => none
  | .list [] => none
  | .list (h :: rest) =>
    if h = SExp.str "locked" then
      (parse_bool item).map fun b => { obj with locked := some b }
    else if h = SExp.str "pts" then
      (rest.mapM fun e => Coordinate2D.from_sexpr e).map fun l => { obj with pts := l }
    else if h = SExp.str "width" then
      match rest with
      | [] => none
      | v :: _ => (pyFloat v).map fun q => { obj with width := some q }
    else if h = SExp.str "stroke" then
      (Stroke.from_sexpr item).map fun st => { obj with stroke := some st }
    else if h = SExp.str "layer" then
      some { obj with layer := some (concatPyStr rest) }
    else if h = SExp.str "uuid" then
      some { obj with uuid := some (concatPyStr rest) }
    else some obj

/-- The item loop of `SexprAuto.from_sexpr` specialised to `GrCurve`. -/
def grCurveLoop : List SExp → GrCurve → Option GrCurve
  | [], obj => some obj
  | item :: rest, obj => (grCurveItem obj item).bind (grCurveLoop rest)

/-- `SexprAuto.from_sexpr` (sexpr.py lines 215-277) specialised to `GrCurve`.
Note that the engine never inspects `exp[0]`: no head-tag check of any kind
is performed. Slicing `exp[1:]` of a string iterates over its remaining
characters, all of which are dropped by the loop; slicing a number raises. -/
def GrCurve.from_sexpr : SExp → Option GrCurve
  | .list l => grCurveLoop l.tail {}
  | .str _ => some {}
  | .int _ => none
  | .float _ => none

/-! ## `SexprAuto.to_sexpr` specialised to `GrCurve` -/

/-- `maybe_to_sexpr` on a named value (sexpr.py lines 141-149): an empty
rendering vanishes, otherwise `{indent spaces}({name} {v})`. -/
def maybeNamed (indent : ℕ) (name v : String) : String :=
  if v = "" then "" else ⟨List.replicate indent ' '⟩ ++ "(" ++ name ++ " " ++ v ++ ")"

/-- The per-element call of the list branch of `val_to_str` (sexpr.py line
103): `maybe_to_sexpr(elem, typ=t)` with no name and the default `indent=1`
prefixes one space to a non-empty rendering. -/
def maybeElem (v : String) : String :=
  if v = "" then "" else " " ++ v

/-- Rendering of the `locked` field tuple `(val, "locked", Optional[bool])`. -/
def lockedFieldStr : Option Bool → String
  | none => ""
  | some b => maybeElem (maybeNamed 1 "locked" (val_to_str_bool b))

/-- Rendering of the `pts` field tuple: the inner list renders one element per
point, and an empty list renders as `""`, making the whole field vanish. -/
def ptsFieldStr (pts : List Coordinate2D) : String :=
  maybeElem (maybeNamed 1 "pts"
    ((pts.map fun c => maybeElem (Coordinate2D.to_sexpr c)).foldl (· ++ ·) ""))

/-- Rendering of the `width` field tuple `(val, "width", Optional[float])`. -/
def widthFieldStr : Option ℚ → String
  | none => ""
  | some q => maybeElem (maybeNamed 1 "width" (val_to_str_float (.finite q)))

/-- Rendering of the `stroke` field: a value with `to_sexpr` makes
`_sexpr_inter_tuple` return a 2-tuple, so `maybe_to_sexpr` recurses with no
name (one space) and the per-element call prefixes another space. -/
def strokeFieldStr : Option Stroke → String
  | none => ""
  | some st => maybeElem (maybeElem (Stroke.to_sexpr st))

/-- Rendering of a `Optional[str]` field tuple (`layer`, `uuid`). -/
def optStrFieldStr (name : String) : Option String → String
  | none => ""
  | some s => maybeElem (maybeNamed 1 name (val_to_str_str s))

/-- `SexprAuto.to_sexpr` (sexpr.py lines 307-325) specialised to `GrCurve`,
at the default arguments `indent=0, newline=False`. The name passed to
`maybe_to_sexpr` is `self.sexpr_prefix[0]`; `GrCurve.sexpr_prefix` is the
plain string `"gr_curve"`, so indexing yields the single character `"g"`. -/
def GrCurve.to_sexpr (g : GrCurve) : String :=
  maybeNamed 0 "g"
    (lockedFieldStr g.locked ++ ptsFieldStr g.pts ++ widthFieldStr g.width
      ++ strokeFieldStr g.stroke ++ optStrFieldStr "layer" g.layer
      ++ optStrFieldStr "uuid" g.uuid)

/-- The composition the round-trip property is about:
`decode(parse(print(encode(v))))` for a `GrCurve`. -/
def grCurveRoundTrip (g : GrCurve) : Option GrCurve :=
  match parse_sexp g.to_sexpr with
  | .ok t => GrCurve.from_sexpr t
  | .error _ => none

/-- Canonical strings (for the round-trip statement): no embedded double
quote (there is no legacy escape handling to rely on) and no backslash. -/
def canonicalStr (s : String) : Prop := '"' ∉ s.data ∧ '\\' ∉ s.data

/-- Canonical float values: representable with at most six fractional decimal
digits, so that the default 6-digit rounding of the encoder is exact. -/
def canonicalQ (q : ℚ) : Prop := ∃ n : ℤ, q * 10 ^ 6 = n

/-- The depth-scan characterisation of bracket balance used to state the
parse-failure claim: a running depth, `)` at depth zero fails, and the final
depth must be zero (this follows the wording of the specification). -/
def specBalancedScan : List Tok → ℕ → Bool
  | [], d => d == 0
  | .lparen :: ts, d => specBalancedScan ts (d + 1)
  | .rparen :: ts, d =>
    match d with
    | 0 => false
    | e + 1 => specBalancedScan ts e
  | .num _ :: ts, d => specBalancedScan ts d
  | .sq _ :: ts, d => specBalancedScan ts d
  | .sym _ :: ts, d => specBalancedScan ts d

/-- The value appended to the current list by `parse_sexp` for an atom token
(`float(value)` demoted to `int` when integral; strings and symbols both
become Python strings). -/
def tokAtomVal : Tok → Option SExp
  | .num q => some (if q.den = 1 then SExp.int q.num else SExp.float q)
  | .sq s => some (.str ⟨s⟩)
  | .sym s => some (.str ⟨s⟩)
  | .lparen => none
  | .rparen => none

/-- No float atom anywhere in a term has an integral value (the parser demotes
those to `int`). -/
def noIntFloat : SExp → Bool
  | .int _ => true
  | .str _ => true
  | .float q => decide (q.den ≠ 1)
  | .list xs => xs.attach.all fun x => noIntFloat x.1
decreasing_by
  have := List.sizeOf_lt_of_mem x.2
  simp only [Kiutils.SExp.list.sizeOf_spec]
  omega

/-! ## Tokenizer infrastructure: consumption bounds and fuel irrelevance -/

theorem length_dropWhile_le {α} (p : α → Bool) (l : List α) :
    (l.dropWhile p).length ≤ l.length := by
  induction l with
  | nil => simp [List.dropWhile]
  | cons c r ih =>
    by_cases h : p c <;> simp [List.dropWhile, h] <;> omega

theorem length_dropWhile_lt {α} (p : α → Bool) (l : List α)
    (h : l.takeWhile p ≠ []) : (l.dropWhile p).length < l.length := by
  cases l with
  | nil => simp [List.takeWhile] at h
  | cons c r =>
    by_cases hc : p c
    · have := length_dropWhile_le p r
      simp [List.dropWhile, hc]
      omega
    · simp [List.takeWhile, hc] at h

theorem stripSignPM_length (cs : List Char) : (stripSignPM cs).2.length ≤ cs.length := by
  unfold stripSignPM
  split <;> simp

theorem stripSignM_length (cs : List Char) : (stripSignM cs).2.length ≤ cs.length := by
  unfold stripSignM
  split <;> simp

theorem matchNumDottedCore_length {neg : Bool} {cs1 : List Char} {q : ℚ} {r : List Char}
    (h : matchNumDottedCore neg cs1 = some (q, r)) : r.length < cs1.length := by
  unfold matchNumDottedCore at h
  by_cases he : (cs1.takeWhile Char.isDigit).isEmpty
  · rw [if_pos he] at h; simp at h
  rw [if_neg he] at h
  cases hdw : cs1.dropWhile Char.isDigit with
  | nil => rw [hdw] at h; simp at h
  | cons c r2 =>
    rw [hdw] at h
    have hr2 : r2.length < cs1.length := by
      have h1 : cs1.takeWhile Char.isDigit ≠ [] := by
        intro hcon; rw [hcon] at he; simp at he
      have := length_dropWhile_lt Char.isDigit cs1 h1
      rw [hdw] at this
      simp at this
      omega
    simp only [] at h
    by_cases hc : c = '.'
    · rw [if_pos hc] at h
      by_cases he2 : (r2.takeWhile Char.isDigit).isEmpty
      · rw [if_pos he2] at h; simp at h
      rw [if_neg he2] at h
      by_cases hla : numLookahead (r2.dropWhile Char.isDigit)
      · rw [if_pos hla] at h
        injection h with h2
        injection h2 with hq hr
        subst hr
        have := length_dropWhile_le Char.isDigit r2
        omega
      · rw [if_neg hla] at h; simp at h
    · rw [if_neg hc] at h; simp at h

theorem matchNumIntCore_length {neg : Bool} {cs1 : List Char} {q : ℚ} {r : List Char}
    (h : matchNumIntCore neg cs1 = some (q, r)) : r.length < cs1.length := by
  unfold matchNumIntCore at h
  by_cases he : (cs1.takeWhile Char.isDigit).isEmpty
  · rw [if_pos he] at h; simp at h
  rw [if_neg he] at h
  by_cases hla : numLookahead (cs1.dropWhile Char.isDigit)
  · rw [if_pos hla] at h
    injection h with h2
    injection h2 with hq hr
    subst hr
    apply length_dropWhile_lt
    intro hcon; rw [hcon] at he; simp at he
  · rw [if_neg hla] at h; simp at h

theorem matchNum_length {cs : List Char} {q : ℚ} {d : Bool} {r : List Char}
    (h : matchNum cs = some (q, d, r)) : r.length < cs.length := by
  unfold matchNum at h
  split at h
  case _ q2 r2 hd =>
    cases h
    calc r.length < (stripSignPM cs).2.length :=
          matchNumDottedCore_length (by rw [← hd]; rfl)
      _ ≤ cs.length := stripSignPM_length cs
  case _ =>
    split at h
    case _ q2 r2 hi =>
      cases h
      calc r.length < (stripSignM cs).2.length :=
            matchNumIntCore_length (by rw [← hi]; rfl)
        _ ≤ cs.length := stripSignM_length cs
    case _ => exact absurd h (by simp)

theorem sqCandidates_length {prev : Char} {acc l : List Char} :
    ∀ p ∈ sqCandidates prev acc l, p.2.length < l.length := by
  induction l generalizing prev acc with
  | nil => simp [sqCandidates]
  | cons c r ih =>
    intro p hp
    unfold sqCandidates at hp
    by_cases hc : c = '"'
    · rw [if_pos hc] at hp
      by_cases hprev : prev = '\\'
      · rw [if_pos hprev] at hp
        rcases List.mem_cons.mp hp with h | h
        · subst h; simp
        · have := ih _ h
          simp
          omega
      · rw [if_neg hprev] at hp
        rcases List.mem_singleton.mp hp with h
        subst h
        simp
    · rw [if_neg hc] at hp
      have := ih _ hp
      simp
      omega

theorem trySq_length {cs : List Char} {s r : List Char}
    (h : trySq cs = some (s, r)) : r.length < cs.length := by
  unfold trySq at h
  cases cs with
  | nil => simp at h
  | cons c rest =>
    simp only [] at h
    by_cases hc : c = '"'
    · rw [if_pos hc] at h
      cases hg : ((sqCandidates '"' [] rest).filter fun p => sqLookahead p.2).getLast? with
      | none => rw [hg] at h; simp at h
      | some pr =>
        rw [hg] at h
        rcases pr with ⟨content, rr⟩
        simp only [] at h
        injection h with h2
        injection h2 with hq hr
        have hmem : (content, rr) ∈ (sqCandidates '"' [] rest).filter fun p => sqLookahead p.2 :=
          List.mem_of_mem_getLast? hg
        have hmem2 : (content, rr) ∈ sqCandidates '"' [] rest := (List.mem_filter.mp hmem).1
        have h3 : rr.length < rest.length := sqCandidates_length _ hmem2
        rw [← hr]
        simp only [List.length_cons]
        omega
    · rw [if_neg hc] at h; simp at h

/-- Fuel irrelevance for the tokenizer: any fuel at least the input length
gives the same token stream. -/
theorem tokenizeF_mono : ∀ (f g : ℕ) (cs : List Char), cs.length ≤ f → cs.length ≤ g →
    tokenizeF f cs = tokenizeF g cs := by
  intro f
  induction f with
  | zero =>
    intro g cs hf _
    have : cs = [] := List.length_eq_zero.mp (Nat.le_zero.mp hf)
    subst this
    cases g <;> rfl
  | succ f ih =>
    intro g cs hf hg
    cases cs with
    | nil => cases g <;> rfl
    | cons c rest =>
      cases g with
      | zero => simp at hg
      | succ g =>
        show tokenizeF (f + 1) (c :: rest) = tokenizeF (g + 1) (c :: rest)
        unfold tokenizeF
        have hrest : rest.length ≤ f := by simp at hf; omega
        have hrest2 : rest.length ≤ g := by simp at hg; omega
        by_cases hsp : pySpace c
        · rw [if_pos hsp, if_pos hsp]
          exact ih g rest hrest hrest2
        rw [if_neg hsp, if_neg hsp]
        by_cases hlp : c = '('
        · rw [if_pos hlp, if_pos hlp]
          rw [ih g rest hrest hrest2]
        rw [if_neg hlp, if_neg hlp]
        by_cases hrp : c = ')'
        · rw [if_pos hrp, if_pos hrp]
          rw [ih g rest hrest hrest2]
        rw [if_neg hrp, if_neg hrp]
        cases hnum : matchNum (c :: rest) with
        | some v =>
          rcases v with ⟨q, d, r⟩
          have hr : r.length ≤ f := by
            have := matchNum_length hnum
            simp at this
            omega
          have hr2 : r.length ≤ g := by
            have := matchNum_length hnum
            simp at this
            omega
          simp only [hnum]
          rw [ih g r hr hr2]
        | none =>
          simp only [hnum]
          cases hsq : trySq (c :: rest) with
          | some v =>
            rcases v with ⟨s, r⟩
            have hr : r.length ≤ f := by
              have := trySq_length hsq
              simp at this
              omega
            have hr2 : r.length ≤ g := by
              have := trySq_length hsq
              simp at this
              omega
            simp only [hsq]
            rw [ih g r hr hr2]
          | none =>
            simp only [hsq]
            by_cases hsc : symChar c
            · rw [if_pos hsc, if_pos hsc]
              have h1 : (rest.dropWhile symChar).length ≤ f := by
                have := length_dropWhile_le symChar rest
                omega
              have h2 : (rest.dropWhile symChar).length ≤ g := by
                have := length_dropWhile_le symChar rest
                omega
              rw [ih g _ h1 h2]
            · rw [if_neg hsc, if_neg hsc]
              exact ih g rest hrest hrest2

/-- Any sufficient fuel computes `tokenize`. -/
theorem tokenizeF_eq_tokenize {f : ℕ} {cs : List Char} (h : cs.length ≤ f) :
    tokenizeF f cs = tokenize cs :=
  tokenizeF_mono f cs.length cs h le_rfl


/-! ## Tokenizer step equations -/

theorem tokenize_nil : tokenize [] = [] := rfl

theorem tokenize_succ (c : Char) (rest : List Char) :
    tokenize (c :: rest) = tokenizeF (rest.length + 1) (c :: rest) := by
  unfold tokenize
  rw [List.length_cons]

theorem tokenize_space {c : Char} (h : pySpace c) (rest : List Char) :
    tokenize (c :: rest) = tokenize rest := by
  rw [tokenize_succ]
  simp only [tokenizeF]
  rw [if_pos h]
  exact tokenizeF_eq_tokenize le_rfl

theorem tokenize_lparen (rest : List Char) :
    tokenize ('(' :: rest) = .lparen :: tokenize rest := by
  rw [tokenize_succ]
  simp only [tokenizeF]
  rw [if_neg (show ¬pySpace '(' = true by decide)]
  rw [if_pos trivial]
  rw [tokenizeF_eq_tokenize le_rfl]

theorem tokenize_rparen (rest : List Char) :
    tokenize (')' :: rest) = .rparen :: tokenize rest := by
  rw [tokenize_succ]
  simp only [tokenizeF]
  rw [if_neg (show ¬pySpace ')' = true by decide)]
  rw [if_pos trivial]
  rw [tokenizeF_eq_tokenize le_rfl]
  rw [if_neg (show ¬(')' : Char) = '(' by decide)]

theorem stripSignPM_eq_of_ne {c : Char} (h1 : c ≠ '+') (h2 : c ≠ '-') (r : List Char) :
    stripSignPM (c :: r) = (false, c :: r) := by
  unfold stripSignPM
  split
  · rename_i heq
    injection heq with ha hb
    exact absurd ha h1
  · rename_i heq
    injection heq with ha hb
    exact absurd ha h2
  · rfl

theorem stripSignM_eq_of_ne {c : Char} (h2 : c ≠ '-') (r : List Char) :
    stripSignM (c :: r) = (false, c :: r) := by
  unfold stripSignM
  split
  · rename_i heq
    injection heq with ha hb
    exact absurd ha h2
  · rfl

theorem matchNum_head {c : Char} {rest : List Char} {v : ℚ × Bool × List Char}
    (h : matchNum (c :: rest) = some v) : c.isDigit ∨ c = '+' ∨ c = '-' := by
  by_cases h1 : c = '+'
  · exact Or.inr (Or.inl h1)
  by_cases h2 : c = '-'
  · exact Or.inr (Or.inr h2)
  left
  by_contra hd
  have htw : (c :: rest).takeWhile Char.isDigit = [] := by
    rw [List.takeWhile_cons, if_neg (by simpa using hd)]
  unfold matchNum matchNumDotted matchNumInt at h
  rw [stripSignPM_eq_of_ne h1 h2, stripSignM_eq_of_ne h2] at h
  simp only [] at h
  unfold matchNumDottedCore matchNumIntCore at h
  rw [htw] at h
  simp at h

theorem pySpace_not_digit {c : Char} (h : pySpace c = true) : c.isDigit = false := by
  unfold pySpace at h
  simp only [Bool.or_eq_true, decide_eq_true_eq] at h
  rcases h with ((((h | h) | h) | h) | h) | h <;> subst h <;> decide

theorem pySpace_eq_false_of_head {c : Char} (hd : c.isDigit ∨ c = '+' ∨ c = '-') :
    pySpace c = false := by
  rcases hd with hd | h | h
  · by_contra hsp
    rw [Bool.not_eq_false] at hsp
    rw [pySpace_not_digit hsp] at hd
    exact absurd hd (by decide)
  · subst h; rfl
  · subst h; rfl

theorem ne_lparen_of_head {c : Char} (hd : c.isDigit ∨ c = '+' ∨ c = '-') :
    c ≠ '(' := by
  rcases hd with hd | h | h
  · intro hcon; subst hcon; exact absurd hd (by decide)
  · subst h; decide
  · subst h; decide

theorem ne_rparen_of_head {c : Char} (hd : c.isDigit ∨ c = '+' ∨ c = '-') :
    c ≠ ')' := by
  rcases hd with hd | h | h
  · intro hcon; subst hcon; exact absurd hd (by decide)
  · subst h; decide
  · subst h; decide

theorem tokenize_num {c : Char} {rest : List Char} {q : ℚ} {d : Bool} {r : List Char}
    (h : matchNum (c :: rest) = some (q, d, r)) :
    tokenize (c :: rest) = .num q :: tokenize r := by
  have hh := matchNum_head h
  rw [tokenize_succ]
  simp only [tokenizeF]
  rw [if_neg (by simp [pySpace_eq_false_of_head hh]), if_neg (ne_lparen_of_head hh),
    if_neg (ne_rparen_of_head hh)]
  simp only [h]
  rw [tokenizeF_eq_tokenize]
  have := matchNum_length h
  simp at this ⊢
  omega

theorem trySq_not_quote {c : Char} {rest : List Char} (h : c ≠ '"') :
    trySq (c :: rest) = none := by
  show (if c = '"' then _ else none) = none
  exact if_neg h

theorem matchNum_none_of_head {c : Char} {rest : List Char}
    (hd : ¬c.isDigit) (h1 : c ≠ '+') (h2 : c ≠ '-') : matchNum (c :: rest) = none := by
  cases h : matchNum (c :: rest) with
  | none => rfl
  | some v =>
    rcases matchNum_head h with hc | hc | hc
    · exact absurd hc hd
    · exact absurd hc h1
    · exact absurd hc h2

theorem tokenize_sq {rest : List Char} {s r : List Char}
    (h : trySq ('"' :: rest) = some (s, r)) :
    tokenize ('"' :: rest) = .sq s :: tokenize r := by
  rw [tokenize_succ]
  simp only [tokenizeF]
  rw [if_neg (by decide), if_neg (by decide), if_neg (by decide)]
  rw [matchNum_none_of_head (by decide) (by decide) (by decide)]
  simp only [h]
  rw [tokenizeF_eq_tokenize]
  have := trySq_length h
  simp at this ⊢
  omega

theorem tokenize_sym {c : Char} (rest : List Char)
    (hd : ¬c.isDigit) (h1 : c ≠ '+') (h2 : c ≠ '-') (h3 : c ≠ '"')
    (hsc : symChar c) :
    tokenize (c :: rest) =
      .sym (c :: rest.takeWhile symChar) :: tokenize (rest.dropWhile symChar) := by
  have hsp : ¬pySpace c = true := by
    unfold symChar at hsc
    simp only [Bool.and_eq_true, Bool.not_eq_true'] at hsc
    simp [hsc.1.1.1]
  have hlp : c ≠ '(' := by
    unfold symChar at hsc
    simp only [Bool.and_eq_true, bne_iff_ne] at hsc
    exact hsc.1.1.2
  have hrp : c ≠ ')' := by
    unfold symChar at hsc
    simp only [Bool.and_eq_true, bne_iff_ne] at hsc
    exact hsc.1.2
  rw [tokenize_succ]
  simp only [tokenizeF]
  rw [if_neg hsp, if_neg hlp, if_neg hrp]
  rw [matchNum_none_of_head hd h1 h2, trySq_not_quote h3]
  rw [if_pos hsc]
  rw [tokenizeF_eq_tokenize]
  have := length_dropWhile_le symChar rest
  simp
  omega

/-- A whole symbol word followed by a non-symbol character. -/
theorem takeWhile_append_stop {α} (p : α → Bool) {w : List α} (hw : ∀ c ∈ w, p c)
    (b : α) (hb : ¬p b) (r : List α) :
    (w ++ b :: r).takeWhile p = w ∧ (w ++ b :: r).dropWhile p = b :: r := by
  induction w with
  | nil =>
    constructor
    · rw [List.nil_append, List.takeWhile_cons, if_neg (by simp [hb])]
    · rw [List.nil_append, List.dropWhile_cons, if_neg (by simp [hb])]
  | cons a w ih =>
    have ha : p a := hw a (by simp)
    have hrest : ∀ c ∈ w, p c = true := fun c hc => hw c (by simp [hc])
    obtain ⟨iht, ihd⟩ := ih hrest
    constructor
    · rw [List.cons_append, List.takeWhile_cons, if_pos ha, iht]
    · rw [List.cons_append, List.dropWhile_cons, if_pos ha, ihd]

/-- Tokenizing a symbol word: a run of symbol characters not starting with a
digit, sign or quote, followed by a non-symbol character, lexes to one `sym`
token. -/
theorem tokenize_word (c : Char) (w : List Char) {b : Char} (rest : List Char)
    (hall : ∀ x ∈ c :: w, symChar x)
    (hd : ¬c.isDigit) (h1 : c ≠ '+') (h2 : c ≠ '-') (h3 : c ≠ '"')
    (hb : ¬symChar b) :
    tokenize ((c :: w) ++ b :: rest) = .sym (c :: w) :: tokenize (b :: rest) := by
  obtain ⟨ht, hdw⟩ := takeWhile_append_stop symChar
    (fun x hx => hall x (List.mem_cons_of_mem c hx)) b hb rest
  rw [List.cons_append]
  rw [tokenize_sym (w ++ b :: rest) hd h1 h2 h3 (hall c (by simp))]
  rw [ht, hdw]


/-! ## Decimal digit lemmas -/

theorem digitsToNat_go (l : List Char) (init : ℕ) :
    l.foldl (fun a c => 10 * a + digitVal c) init =
      init * 10 ^ l.length + digitsToNat l := by
  induction l generalizing init with
  | nil => simp [digitsToNat]
  | cons c r ih =>
    simp only [List.foldl_cons, digitsToNat] at ih ⊢
    rw [ih (10 * init + digitVal c), ih (10 * 0 + digitVal c)]
    simp only [List.length_cons]
    ring

theorem digitsToNat_append (a b : List Char) :
    digitsToNat (a ++ b) = digitsToNat a * 10 ^ b.length + digitsToNat b := by
  unfold digitsToNat
  rw [List.foldl_append]
  exact digitsToNat_go b _

theorem digitsToNat_replicate_zero (k : ℕ) :
    digitsToNat (List.replicate k '0') = 0 := by
  induction k with
  | zero => rfl
  | succ k ih =>
    rw [List.replicate_succ]
    unfold digitsToNat at ih ⊢
    simp only [List.foldl_cons]
    have h0 : 10 * 0 + digitVal '0' = 0 := by decide
    rw [h0, ih]

theorem digitVal_ofNat {k : ℕ} (h : k < 10) :
    digitVal (Char.ofNat (k + 48)) = k := by
  interval_cases k <;> decide

theorem isDigit_ofNat {k : ℕ} (h : k < 10) :
    (Char.ofNat (k + 48)).isDigit = true := by
  interval_cases k <;> decide

theorem natCharsAux_digits : ∀ (f n : ℕ), ∀ c ∈ natCharsAux f n, c.isDigit := by
  intro f
  induction f with
  | zero => intro n c hc; simp [natCharsAux] at hc
  | succ f ih =>
    intro n c hc
    unfold natCharsAux at hc
    by_cases hn : n = 0
    · rw [if_pos hn] at hc; simp at hc
    · rw [if_neg hn] at hc
      rcases List.mem_append.mp hc with h | h
      · exact ih _ c h
      · rcases List.mem_singleton.mp h with rfl
        exact isDigit_ofNat (Nat.mod_lt _ (by norm_num))

theorem natCharsAux_toNat : ∀ (f n : ℕ), n ≤ f → digitsToNat (natCharsAux f n) = n := by
  intro f
  induction f with
  | zero =>
    intro n hn
    have : n = 0 := Nat.le_zero.mp hn
    subst this
    rfl
  | succ f ih =>
    intro n hn
    unfold natCharsAux
    by_cases hz : n = 0
    · rw [if_pos hz]; subst hz; rfl
    · rw [if_neg hz]
      rw [digitsToNat_append]
      have h10 : n / 10 ≤ f := by
        have : n / 10 < n := Nat.div_lt_self (Nat.pos_of_ne_zero hz) (by norm_num)
        omega
      rw [ih _ h10]
      have hm : n % 10 < 10 := Nat.mod_lt _ (by norm_num)
      have hone : digitsToNat [Char.ofNat (n % 10 + 48)] = n % 10 := by
        unfold digitsToNat
        simp only [List.foldl_cons, List.foldl_nil]
        rw [Nat.mul_zero, Nat.zero_add, digitVal_ofNat hm]
      rw [hone]
      simp only [List.length_singleton, pow_one]
      omega

theorem digitsToNat_natChars (n : ℕ) : digitsToNat (natChars n) = n := by
  unfold natChars
  by_cases h : n = 0
  · rw [if_pos h]; subst h; rfl
  · rw [if_neg h]; exact natCharsAux_toNat n n le_rfl

theorem natChars_digits (n : ℕ) : ∀ c ∈ natChars n, c.isDigit := by
  unfold natChars
  by_cases h : n = 0
  · rw [if_pos h]; intro c hc; rcases List.mem_singleton.mp hc with rfl; decide
  · rw [if_neg h]; exact natCharsAux_digits n n

theorem natChars_ne_nil (n : ℕ) : natChars n ≠ [] := by
  unfold natChars
  by_cases h : n = 0
  · rw [if_pos h]; simp
  · rw [if_neg h]
    cases n with
    | zero => exact absurd rfl h
    | succ m =>
      unfold natCharsAux
      rw [if_neg h]
      simp

theorem natCharsAux_length : ∀ (f k n : ℕ), n < 10 ^ k → (natCharsAux f n).length ≤ k := by
  intro f
  induction f with
  | zero => intro k n _; simp [natCharsAux]
  | succ f ih =>
    intro k n hn
    unfold natCharsAux
    by_cases hz : n = 0
    · rw [if_pos hz]; simp
    · rw [if_neg hz]
      cases k with
      | zero =>
        simp only [pow_zero] at hn
        omega
      | succ k =>
        have hdiv : n / 10 < 10 ^ k := by
          rw [pow_succ] at hn
          omega
        have := ih k (n / 10) hdiv
        simp only [List.length_append, List.length_singleton]
        omega

theorem natChars_length {k n : ℕ} (hk : 0 < k) (hn : n < 10 ^ k) :
    (natChars n).length ≤ k := by
  unfold natChars
  by_cases h : n = 0
  · rw [if_pos h]; simpa using hk
  · rw [if_neg h]; exact natCharsAux_length n k n hn

/-! ## Value lemmas for the numeric alternatives -/

theorem takeWhile_all {α} (p : α → Bool) {w : List α} (hw : ∀ c ∈ w, p c) :
    w.takeWhile p = w ∧ w.dropWhile p = [] := by
  induction w with
  | nil => simp
  | cons a w ih =>
    have ha : p a := hw a (by simp)
    obtain ⟨iht, ihd⟩ := ih fun c hc => hw c (by simp [hc])
    constructor
    · rw [List.takeWhile_cons, if_pos ha, iht]
    · rw [List.dropWhile_cons, if_pos ha, ihd]

theorem matchNumIntCore_run {neg : Bool} {A : List Char} {b : Char} {r : List Char}
    (hA : A ≠ []) (hall : ∀ c ∈ A, Char.isDigit c)
    (hb : ¬Char.isDigit b) (hla : numLookahead (b :: r)) :
    matchNumIntCore neg (A ++ b :: r) = some (intValue neg A, b :: r) := by
  obtain ⟨ht, hd⟩ := takeWhile_append_stop Char.isDigit hall b hb r
  unfold matchNumIntCore
  rw [ht, hd]
  rw [if_neg (by simpa using hA), if_pos hla]

theorem matchNumDottedCore_stop {neg : Bool} {A : List Char} {b : Char} {r : List Char}
    (hall : ∀ c ∈ A, Char.isDigit c)
    (hb : ¬Char.isDigit b) (hbd : b ≠ '.') :
    matchNumDottedCore neg (A ++ b :: r) = none := by
  obtain ⟨ht, hd⟩ := takeWhile_append_stop Char.isDigit hall b hb r
  unfold matchNumDottedCore
  rw [ht, hd]
  by_cases hA : (A : List Char).isEmpty
  · rw [if_pos hA]
  · rw [if_neg hA]
    simp only []
    rw [if_neg hbd]

theorem matchNumDottedCore_run {neg : Bool} {A F : List Char} {b : Char} {r : List Char}
    (hA : A ≠ []) (hallA : ∀ c ∈ A, Char.isDigit c)
    (hF : F ≠ []) (hallF : ∀ c ∈ F, Char.isDigit c)
    (hb : ¬Char.isDigit b) (hla : numLookahead (b :: r)) :
    matchNumDottedCore neg (A ++ '.' :: (F ++ b :: r)) = some (decValue neg A F, b :: r) := by
  obtain ⟨ht, hd⟩ := takeWhile_append_stop Char.isDigit hallA '.' (by decide) (F ++ b :: r)
  obtain ⟨ht2, hd2⟩ := takeWhile_append_stop Char.isDigit hallF b hb r
  unfold matchNumDottedCore
  rw [ht, hd]
  rw [if_neg (by simpa using hA)]
  simp only []
  rw [if_pos trivial]
  rw [ht2, hd2]
  rw [if_neg (by simpa using hF), if_pos hla]

theorem digit_ne_plus {c : Char} (h : c.isDigit) : c ≠ '+' := by
  intro hcon; subst hcon; exact absurd h (by decide)

theorem digit_ne_minus {c : Char} (h : c.isDigit) : c ≠ '-' := by
  intro hcon; subst hcon; exact absurd h (by decide)

theorem numLookahead_not_digit {b : Char} {r : List Char} (h : numLookahead (b :: r)) :
    ¬Char.isDigit b ∧ b ≠ '.' := by
  unfold numLookahead at h
  simp only [Bool.or_eq_true, decide_eq_true_eq] at h
  rcases h with h | h <;> subst h <;> exact ⟨by decide, by decide⟩

/-- An unsigned integer digit run followed by a space or `)` lexes as one
integer number token. -/
theorem matchNum_intRun {a : Char} {A : List Char} {b : Char} {r : List Char}
    (hall : ∀ c ∈ a :: A, Char.isDigit c) (hla : numLookahead (b :: r)) :
    matchNum ((a :: A) ++ b :: r) = some (intValue false (a :: A), false, b :: r) := by
  obtain ⟨hbd, hbdot⟩ := numLookahead_not_digit hla
  have ha : Char.isDigit a := hall a (by simp)
  have hpm : stripSignPM ((a :: A) ++ b :: r) = (false, (a :: A) ++ b :: r) :=
    stripSignPM_eq_of_ne (digit_ne_plus ha) (digit_ne_minus ha) _
  have hm : stripSignM ((a :: A) ++ b :: r) = (false, (a :: A) ++ b :: r) :=
    stripSignM_eq_of_ne (digit_ne_minus ha) _
  unfold matchNum matchNumDotted matchNumInt
  rw [hpm, hm]
  simp only []
  rw [matchNumDottedCore_stop hall hbd hbdot]
  rw [matchNumIntCore_run (by simp) hall hbd hla]

/-- A minus-signed integer digit run followed by a space or `)`. -/
theorem matchNum_negIntRun {a : Char} {A : List Char} {b : Char} {r : List Char}
    (hall : ∀ c ∈ a :: A, Char.isDigit c) (hla : numLookahead (b :: r)) :
    matchNum ('-' :: ((a :: A) ++ b :: r)) = some (intValue true (a :: A), false, b :: r) := by
  obtain ⟨hbd, hbdot⟩ := numLookahead_not_digit hla
  have hpm : stripSignPM ('-' :: ((a :: A) ++ b :: r)) = (true, (a :: A) ++ b :: r) := rfl
  have hm : stripSignM ('-' :: ((a :: A) ++ b :: r)) = (true, (a :: A) ++ b :: r) := rfl
  unfold matchNum matchNumDotted matchNumInt
  rw [hpm, hm]
  simp only []
  rw [matchNumDottedCore_stop hall hbd hbdot]
  rw [matchNumIntCore_run (by simp) hall hbd hla]

/-- An unsigned decimal with a fraction part followed by a space or `)`
lexes as one dotted number token. -/
theorem matchNum_fracRun {a : Char} {A : List Char} {f : Char} {F : List Char}
    {b : Char} {r : List Char}
    (hallA : ∀ c ∈ a :: A, Char.isDigit c) (hallF : ∀ c ∈ f :: F, Char.isDigit c)
    (hla : numLookahead (b :: r)) :
    matchNum ((a :: A) ++ '.' :: ((f :: F) ++ b :: r)) =
      some (decValue false (a :: A) (f :: F), true, b :: r) := by
  obtain ⟨hbd, hdum⟩ := numLookahead_not_digit hla
  have ha : Char.isDigit a := hallA a (by simp)
  have hpm : stripSignPM ((a :: A) ++ '.' :: ((f :: F) ++ b :: r)) =
      (false, (a :: A) ++ '.' :: ((f :: F) ++ b :: r)) :=
    stripSignPM_eq_of_ne (digit_ne_plus ha) (digit_ne_minus ha) _
  unfold matchNum matchNumDotted
  rw [hpm]
  simp only []
  rw [matchNumDottedCore_run (by simp) hallA (by simp) hallF hbd hla]

/-- A minus-signed decimal with a fraction part. -/
theorem matchNum_negFracRun {a : Char} {A : List Char} {f : Char} {F : List Char}
    {b : Char} {r : List Char}
    (hallA : ∀ c ∈ a :: A, Char.isDigit c) (hallF : ∀ c ∈ f :: F, Char.isDigit c)
    (hla : numLookahead (b :: r)) :
    matchNum ('-' :: ((a :: A) ++ '.' :: ((f :: F) ++ b :: r))) =
      some (decValue true (a :: A) (f :: F), true, b :: r) := by
  obtain ⟨hbd, hdum⟩ := numLookahead_not_digit hla
  have hpm : stripSignPM ('-' :: ((a :: A) ++ '.' :: ((f :: F) ++ b :: r))) =
      (true, (a :: A) ++ '.' :: ((f :: F) ++ b :: r)) := rfl
  unfold matchNum matchNumDotted
  rw [hpm]
  simp only []
  rw [matchNumDottedCore_run (by simp) hallA (by simp) hallF hbd hla]


/-! ## Quoted strings without quotes or backslashes -/

theorem sqCandidates_clean {S : List Char} (hq : '"' ∉ S) (hbs : '\\' ∉ S) :
    ∀ (prev : Char) (acc r2 : List Char), prev ≠ '\\' →
      sqCandidates prev acc (S ++ '"' :: r2) = [(acc ++ S, r2)] := by
  induction S with
  | nil =>
    intro prev acc r2 hprev
    simp [sqCandidates, hprev]
  | cons c S ih =>
    intro prev acc r2 hprev
    have hc : c ≠ '"' := fun hcon => hq (by simp [hcon])
    have hcb : c ≠ '\\' := fun hcon => hbs (by simp [hcon])
    have hq2 : '"' ∉ S := fun hcon => hq (by simp [hcon])
    have hbs2 : '\\' ∉ S := fun hcon => hbs (by simp [hcon])
    rw [List.cons_append]
    have hstep := ih hq2 hbs2 c (acc ++ [c]) r2 hcb
    simp only [sqCandidates, if_neg hc]
    rw [hstep]
    simp

theorem unescapeChars_clean : ∀ {S : List Char}, '\\' ∉ S → unescapeChars S = S := by
  intro S
  induction S with
  | nil => intro h; rfl
  | cons c S ih =>
    intro hbs
    have hcb : c ≠ '\\' := fun hcon => hbs (by simp [hcon])
    have hbs2 : '\\' ∉ S := fun hcon => hbs (by simp [hcon])
    cases S with
    | nil => rfl
    | cons c2 S2 =>
      unfold unescapeChars
      rw [if_neg hcb]
      rw [ih hbs2]

theorem trySq_clean {S : List Char} (hq : '"' ∉ S) (hbs : '\\' ∉ S)
    {r2 : List Char} (hla : sqLookahead r2) :
    trySq ('"' :: (S ++ '"' :: r2)) = some (S, r2) := by
  have hc := sqCandidates_clean hq hbs '"' [] r2 (by decide)
  rw [List.nil_append] at hc
  simp only [trySq, if_pos rfl]
  rw [hc]
  rw [List.filter_cons_of_pos (by simpa using hla)]
  simp [unescapeChars_clean hbs]

/-- Tokenizing a canonical quoted string: content free of quotes and
backslashes, closing quote followed by `)` or whitespace. -/
theorem tokenize_string {S : List Char} (hq : '"' ∉ S) (hbs : '\\' ∉ S)
    {b : Char} {rest : List Char} (hla : sqLookahead (b :: rest)) :
    tokenize ('"' :: (S ++ '"' :: b :: rest)) = .sq S :: tokenize (b :: rest) :=
  tokenize_sq (trySq_clean hq hbs hla)

/-! ## The parse loop: composition lemmas -/

theorem runToks_atoms (atoks : List Tok) (h : ∀ t ∈ atoks, tokAtomVal t ≠ none) :
    ∀ (ts : List Tok) (stack : List (List SExp)) (out : List SExp),
      runToks (atoks ++ ts) stack out =
        runToks ts stack (out ++ atoks.filterMap tokAtomVal) := by
  induction atoks with
  | nil => intro ts stack out; simp
  | cons t atoks ih =>
    intro ts stack out
    have ht : tokAtomVal t ≠ none := h t (by simp)
    have hrest : ∀ x ∈ atoks, tokAtomVal x ≠ none := fun x hx => h x (by simp [hx])
    cases t with
    | lparen => exact absurd rfl ht
    | rparen => exact absurd rfl ht
    | num q =>
      rw [List.cons_append]
      simp only [runToks]
      rw [ih hrest]
      simp [tokAtomVal, List.filterMap_cons]
    | sq s =>
      rw [List.cons_append]
      simp only [runToks]
      rw [ih hrest]
      simp [tokAtomVal, List.filterMap_cons]
    | sym s =>
      rw [List.cons_append]
      simp only [runToks]
      rw [ih hrest]
      simp [tokAtomVal, List.filterMap_cons]

/-- Consuming one named single-atom item `(name atom)`. -/
theorem runToks_item (w : List Char) (t : Tok) {v : SExp} (hv : tokAtomVal t = some v)
    (ts : List Tok) (stack : List (List SExp)) (out : List SExp) :
    runToks (.lparen :: .sym w :: t :: .rparen :: ts) stack out =
      runToks ts stack (out ++ [SExp.list [SExp.str ⟨w⟩, v]]) := by
  cases t with
  | lparen => simp [tokAtomVal] at hv
  | rparen => simp [tokAtomVal] at hv
  | num q =>
    simp only [tokAtomVal] at hv
    injection hv with hv
    simp only [runToks]
    rw [hv]
    simp
  | sq s =>
    simp only [tokAtomVal] at hv
    injection hv with hv
    simp only [runToks]
    rw [hv]
    simp
  | sym s =>
    simp only [tokAtomVal] at hv
    injection hv with hv
    simp only [runToks]
    rw [hv]
    simp


/-! ## Balance characterisation of the parse loop (for the error claim) -/

theorem isEmpty_iff_length {α} (l : List α) : l.isEmpty = (l.length == 0) := by
  cases l <;> rfl

theorem runToks_isOk_eq_scan : ∀ (ts : List Tok) (stack : List (List SExp)) (out : List SExp),
    (runToks ts stack out).isOk = specBalancedScan ts stack.length := by
  intro ts
  induction ts with
  | nil =>
    intro stack out
    simp only [runToks, specBalancedScan]
    rw [isEmpty_iff_length]
    by_cases h : (stack.length == 0) = true
    · rw [if_pos h, h]; rfl
    · rw [if_neg h]
      rw [Bool.not_eq_true] at h
      rw [h]
      rfl
  | cons t ts ih =>
    intro stack out
    cases t with
    | lparen =>
      simp only [runToks, specBalancedScan]
      rw [ih (out :: stack) []]
      rfl
    | rparen =>
      cases stack with
      | nil => simp [runToks, specBalancedScan, Except.isOk, Except.toBool]
      | cons s st =>
        simp only [runToks, specBalancedScan, List.length_cons]
        exact ih st (s ++ [SExp.list out])
    | num q => simp only [runToks, specBalancedScan]; exact ih _ _
    | sq s => simp only [runToks, specBalancedScan]; exact ih _ _
    | sym s => simp only [runToks, specBalancedScan]; exact ih _ _

/-! ## The parser never produces an integral-valued float atom -/

theorem noIntFloat_list_iff (xs : List SExp) :
    noIntFloat (.list xs) = true ↔ ∀ x ∈ xs, noIntFloat x = true := by
  conv_lhs => rw [noIntFloat]
  rw [List.all_eq_true]
  constructor
  · intro h x hx
    exact h ⟨x, hx⟩ (List.mem_attach _ _)
  · intro h p hp
    exact h p.1 p.2

theorem runToks_noIntFloat :
    ∀ (ts : List Tok) (stack : List (List SExp)) (out : List SExp) (res : List SExp),
      (∀ l ∈ stack, ∀ x ∈ l, noIntFloat x = true) →
      (∀ x ∈ out, noIntFloat x = true) →
      runToks ts stack out = .ok res →
      ∀ x ∈ res, noIntFloat x = true := by
  intro ts
  induction ts with
  | nil =>
    intro stack out res hstack hout h
    unfold runToks at h
    by_cases he : stack.isEmpty
    · rw [if_pos he] at h
      injection h with h
      subst h
      exact hout
    · rw [if_neg he] at h
      simp at h
  | cons t ts ih =>
    intro stack out res hstack hout h
    cases t with
    | lparen =>
      refine ih (out :: stack) [] res ?_ (by simp) h
      intro l hl
      rcases List.mem_cons.mp hl with rfl | hl
      · exact hout
      · exact hstack l hl
    | rparen =>
      cases stack with
      | nil => simp [runToks] at h
      | cons s st =>
        refine ih st (s ++ [SExp.list out]) res (fun l hl => hstack l (by simp [hl])) ?_ h
        intro x hx
        rcases List.mem_append.mp hx with hx | hx
        · exact hstack s (by simp) x hx
        · rcases List.mem_singleton.mp hx with rfl
          exact (noIntFloat_list_iff out).mpr hout
    | num q =>
      refine ih stack _ res hstack ?_ h
      intro x hx
      rcases List.mem_append.mp hx with hx | hx
      · exact hout x hx
      · rcases List.mem_singleton.mp hx with rfl
        by_cases hq : q.den = 1
        · rw [if_pos hq]; simp [noIntFloat]
        · rw [if_neg hq]; simpa [noIntFloat] using hq
    | sq s =>
      refine ih stack _ res hstack ?_ h
      intro x hx
      rcases List.mem_append.mp hx with hx | hx
      · exact hout x hx
      · rcases List.mem_singleton.mp hx with rfl
        simp [noIntFloat]
    | sym s =>
      refine ih stack _ res hstack ?_ h
      intro x hx
      rcases List.mem_append.mp hx with hx | hx
      · exact hout x hx
      · rcases List.mem_singleton.mp hx with rfl
        simp [noIntFloat]

theorem tokenize_x_one : tokenize "(x 1.0)".data = [.lparen, .sym ['x'], .num 1, .rparen] := by
  have hdata : "(x 1.0)".data = ['(', 'x', ' ', '1', '.', '0', ')'] := rfl
  rw [hdata, tokenize_lparen]
  rw [show ('x' :: ' ' :: '1' :: '.' :: '0' :: [')'] : List Char) =
    ('x' :: []) ++ ' ' :: ['1', '.', '0', ')'] from rfl]
  rw [tokenize_word 'x' [] ['1', '.', '0', ')'] (by decide) (by decide) (by decide) (by decide)
    (by decide) (by decide)]
  rw [tokenize_space (by decide)]
  have hm := @matchNum_fracRun '1' [] '0' [] ')' [] (by decide) (by decide) (by decide)
  simp only [List.cons_append, List.nil_append] at hm
  rw [tokenize_num hm]
  rw [tokenize_rparen, tokenize_nil]
  have hv : decValue false ['1'] ['0'] = 1 := by
    unfold decValue
    rw [show digitsToNat ['1'] = 1 from rfl, show digitsToNat ['0'] = 0 from rfl]
    norm_num
  rw [hv]

theorem parse_x_one : parse_sexp "(x 1.0)" = .ok (.list [.str "x", .int 1]) := by
  unfold parse_sexp
  rw [tokenize_x_one]
  have hr : runToks [.lparen, .sym ['x'], .num 1, .rparen] [] [] =
      .ok [SExp.list [.str "x", .int 1]] := by
    simp only [runToks]
    norm_num
  rw [hr]

theorem parse_two_top : parse_sexp "(a) (b)" = .ok (.list [.str "a"]) := by rfl

theorem parse_empty_noTerm : parse_sexp "" = .error .noTerm := by rfl


/-! ## Decoder loop composition -/

theorem segLoop_append (a b : List SExp) (obj : Segment) :
    segLoop (a ++ b) obj = (segLoop a obj).bind (segLoop b) := by
  induction a generalizing obj with
  | nil => rfl
  | cons x a ih =>
    rw [List.cons_append]
    simp only [segLoop]
    cases segItem obj x with
    | none => rfl
    | some obj2 => simpa using ih obj2

theorem grCurveLoop_append (a b : List SExp) (obj : GrCurve) :
    grCurveLoop (a ++ b) obj = (grCurveLoop a obj).bind (grCurveLoop b) := by
  induction a generalizing obj with
  | nil => rfl
  | cons x a ih =>
    rw [List.cons_append]
    simp only [grCurveLoop]
    cases grCurveItem obj x with
    | none => rfl
    | some obj2 => simpa using ih obj2

/-- An unknown child list is dropped by the hand-written `Segment` loop. -/
theorem segItem_unknown (obj : Segment) {h : String} (us : List SExp)
    (hn : h ∉ ["locked", "start", "end", "width", "layer", "net", "uuid"]) :
    segItem obj (.list (.str h :: us)) = some obj := by
  simp only [List.mem_cons, List.mem_singleton, not_or] at hn
  obtain ⟨h1, h2, h3, h4, h5, h6, h7, _⟩ := hn
  simp [segItem, pyIdx0, SExp.str.injEq, h1, h2, h3, h4, h5, h6, h7]

/-- An unknown child list is dropped by the `SexprAuto` loop for `GrCurve`. -/
theorem grCurveItem_unknown (obj : GrCurve) {h : String} (us : List SExp)
    (hn : h ∉ ["locked", "pts", "width", "stroke", "layer", "uuid"]) :
    grCurveItem obj (.list (.str h :: us)) = some obj := by
  simp only [List.mem_cons, List.mem_singleton, not_or] at hn
  obtain ⟨h1, h2, h3, h4, h5, h6, _⟩ := hn
  simp [grCurveItem, SExp.str.injEq, h1, h2, h3, h4, h5, h6]

/-! ## Claim C2 (marshaller head-tag checking) -/

/-- Claim C2 counterexample: the generic `SexprAuto.from_sexpr` performs no
head-tag check at all — decoding a term whose head symbol is `bogus_head`
with the `GrCurve` decoder succeeds (and even populates fields), instead of
failing with an unknown-tag error as the claim states. -/
theorem C2_counterexample :
    GrCurve.from_sexpr (.list [.str "bogus_head", .list [.str "layer", .str "X"]]) =
      some { layer := some "X" } := by
  rfl

/-- Claim C2 (amended): the hand-written `Segment.from_sexpr` raises unless
the term is a list whose first element is the string `segment`; the generic
`SexprAuto.from_sexpr` (here: `GrCurve`) never inspects the head element, so
its result is entirely independent of it and no unknown-tag failure exists. -/
theorem C2_head_tag_amended :
    (∀ e : SExp, (∀ rest, e ≠ .list (.str "segment" :: rest)) →
        Segment.from_sexpr e = none) ∧
    (∀ (x : SExp) (args : List SExp),
        GrCurve.from_sexpr (.list (x :: args)) =
          GrCurve.from_sexpr (.list (.str "gr_curve" :: args))) := by
  constructor
  · intro e he
    match e with
    | .int n => rfl
    | .float q => rfl
    | .str s => rfl
    | .list [] => rfl
    | .list (x :: rest) =>
      simp only [Segment.from_sexpr]
      rw [if_neg]
      intro hcon
      subst hcon
      exact he rest rfl
  · intro x args
    rfl

/-- Claim C2 witness: the amended theorem applied at a concrete non-list
input. -/
theorem C2_witness : Segment.from_sexpr (.int 5) = none :=
  C2_head_tag_amended.1 (.int 5) fun _ h => SExp.noConfusion h

/-! ## Claim C3 (unknown children silently dropped) -/

/-- Claim C3: appending an unrecognized child list (head symbol matching no
field) to a term changes nothing about its decode, for both the hand-written
`Segment` decoder and the generic `SexprAuto` decoder of `GrCurve`; in
particular no error is raised because of it. -/
theorem C3_unknown_child_ignored :
    (∀ (args : List SExp) (h : String) (us : List SExp),
        h ∉ ["locked", "start", "end", "width", "layer", "net", "uuid"] →
        Segment.from_sexpr (.list (.str "segment" :: (args ++ [.list (.str h :: us)]))) =
          Segment.from_sexpr (.list (.str "segment" :: args))) ∧
    (∀ (x : SExp) (args : List SExp) (h : String) (us : List SExp),
        h ∉ ["locked", "pts", "width", "stroke", "layer", "uuid"] →
        GrCurve.from_sexpr (.list (x :: (args ++ [.list (.str h :: us)]))) =
          GrCurve.from_sexpr (.list (x :: args))) := by
  constructor
  · intro args h us hn
    simp only [Segment.from_sexpr, if_pos]
    rw [show SExp.str "segment" :: (args ++ [SExp.list (.str h :: us)]) =
      (SExp.str "segment" :: args) ++ [SExp.list (.str h :: us)] from by simp]
    rw [segLoop_append]
    cases segLoop (SExp.str "segment" :: args) {} with
    | none => rfl
    | some obj =>
      show segLoop [SExp.list (.str h :: us)] obj = some obj
      show (segItem obj (.list (.str h :: us))).bind (segLoop []) = some obj
      rw [segItem_unknown obj us hn]
      rfl
  · intro x args h us hn
    show grCurveLoop (args ++ [SExp.list (.str h :: us)]) {} = grCurveLoop args {}
    rw [grCurveLoop_append]
    cases grCurveLoop args {} with
    | none => rfl
    | some obj =>
      show grCurveLoop [SExp.list (.str h :: us)] obj = some obj
      show (grCurveItem obj (.list (.str h :: us))).bind (grCurveLoop []) = some obj
      rw [grCurveItem_unknown obj us hn]
      rfl

/-- Claim C3 witness: the theorem applied at the concrete inputs of the
specification (`(unknown_token 1 2 3)` appended to a segment body). -/
theorem C3_witness :
    Segment.from_sexpr (.list (.str "segment" :: ([.list [.str "net", .int 5]] ++
        [.list (.str "unknown_token" :: [.int 1, .int 2, .int 3])]))) =
      Segment.from_sexpr (.list (.str "segment" :: [.list [.str "net", .int 5]])) :=
  C3_unknown_child_ignored.1 [.list [.str "net", .int 5]] "unknown_token"
    [.int 1, .int 2, .int 3] (by decide)

/-! ## Claim C4 (boolean decoding) -/

/-- Claim C4 counterexample: for the engine-decoded `Optional[bool]` field
`GrCurve.locked`, absence of the field leaves the declared default `None`,
not `False` — the decoded record holds `none`, which differs from
`some false`. -/
theorem C4_counterexample :
    GrCurve.from_sexpr (.list [.str "gr_curve"]) =
      some { locked := none, pts := [], width := none, stroke := none,
             layer := none, uuid := none } ∧
    (none : Option Bool) ≠ some false := by
  exact ⟨rfl, by decide⟩

/-- Claim C4 (amended): decoding the bare flag symbol, `(locked)`,
`(locked yes)` and `(locked true)` all yield true; `(locked no)` and any
other explicit value yield false; absence of the field leaves the field at
its declared default — `none` for the `Optional[bool]` field of `GrCurve`,
`False` for the plain bool field of `Segment`. -/
theorem C4_bool_decoding_amended :
    GrCurve.from_sexpr (.list [.str "gr_curve", .str "locked"]) =
      some { locked := some true } ∧
    GrCurve.from_sexpr (.list [.str "gr_curve", .list [.str "locked"]]) =
      some { locked := some true } ∧
    GrCurve.from_sexpr (.list [.str "gr_curve", .list [.str "locked", .str "yes"]]) =
      some { locked := some true } ∧
    GrCurve.from_sexpr (.list [.str "gr_curve", .list [.str "locked", .str "true"]]) =
      some { locked := some true } ∧
    GrCurve.from_sexpr (.list [.str "gr_curve", .list [.str "locked", .str "no"]]) =
      some { locked := some false } ∧
    (∀ v : SExp, v ≠ .str "yes" → v ≠ .str "true" →
      GrCurve.from_sexpr (.list [.str "gr_curve", .list [.str "locked", v]]) =
        some { locked := some false }) ∧
    GrCurve.from_sexpr (.list [.str "gr_curve"]) = some { locked := none } ∧
    Segment.from_sexpr (.list [.str "segment"]) = some { locked := false } := by
  refine ⟨rfl, rfl, rfl, rfl, rfl, ?_, rfl, rfl⟩
  intro v h1 h2
  have hb : parse_bool (.list [.str "locked", v]) = some false := by
    unfold parse_bool
    simp [h1, h2]
  show grCurveLoop [SExp.list [.str "locked", v]] {} = some { locked := some false }
  show (grCurveItem {} (.list [.str "locked", v])).bind (grCurveLoop []) = _
  simp [grCurveItem, hb]
  rfl

/-- Claim C4 witness: the universally quantified conjunct applied at the
concrete explicit value `maybe`. -/
theorem C4_witness :
    GrCurve.from_sexpr (.list [.str "gr_curve", .list [.str "locked", .str "maybe"]]) =
      some { locked := some false } :=
  C4_bool_decoding_amended.2.2.2.2.2.1 (.str "maybe") (by decide) (by decide)

/-! ## Claim C6 (non-finite float encoding) -/

/-- Claim C6 counterexample: encoding a NaN float raises nothing — the float
branch of `val_to_str` happily renders the text `nan` (Python
`f"{nan:.6f}"`), so output is produced, contradicting the claimed
`EncodeError`. -/
theorem C6_counterexample : val_to_str_float .nan = "nan" := by rfl

/-- Claim C6 (amended): encoding a non-finite float is a silent fallback, not
an error: `nan`, `inf` and `-inf` are emitted as bare text (which is not
even a valid quoted token of the grammar); the same happens under a
precision override. -/
theorem C6_nonfinite_amended :
    val_to_str_float .nan = "nan" ∧
    val_to_str_float .inf = "inf" ∧
    val_to_str_float .ninf = "-inf" ∧
    sexpr_inter_tuple_precision 6 .nan = "nan" ∧
    sexpr_inter_tuple_precision 6 .inf = "inf" ∧
    sexpr_inter_tuple_precision 6 .ninf = "-inf" := by
  exact ⟨rfl, rfl, rfl, rfl, rfl, rfl⟩


/-! ## Claim C7 (parse error characterisation) -/

theorem runToks_error_unbalanced :
    ∀ (ts : List Tok) (stack : List (List SExp)) (out : List SExp) (e : PErr),
      runToks ts stack out = .error e → e = .unbalanced := by
  intro ts
  induction ts with
  | nil =>
    intro stack out e h
    unfold runToks at h
    by_cases he : stack.isEmpty
    · rw [if_pos he] at h; simp at h
    · rw [if_neg he] at h; injection h with h; exact h.symm
  | cons t ts ih =>
    intro stack out e h
    cases t with
    | lparen => exact ih _ _ e h
    | rparen =>
      cases stack with
      | nil =>
        simp only [runToks] at h
        injection h with h
        exact h.symm
      | cons s st => exact ih _ _ e h
    | num q => exact ih _ _ e h
    | sq s => exact ih _ _ e h
    | sym s => exact ih _ _ e h

/-- Claim C7 counterexample: an input with two balanced top-level
expressions parses successfully (to the first of them), contradicting
"returns a Term exactly when the text contains one balanced top-level
expression". -/
theorem C7_counterexample : parse_sexp "(a) (b)" = .ok (.list [.str "a"]) :=
  parse_two_top

/-- Claim C7 (amended): the unbalanced-parenthesis failure is exactly a
failure of the running depth scan (a `)` at depth zero, or a non-zero final
depth); an input producing no top-level term fails with an index error
(`PErr.noTerm`), not a dedicated empty-input error, and the same happens for
whitespace-only input; when the input holds one or more top-level terms the
first is returned — several top-level terms are not an error. -/
theorem C7_parse_failure_amended :
    (∀ s : String, parse_sexp s = .error .unbalanced ↔
      specBalancedScan (tokenize s.data) 0 = false) ∧
    parse_sexp "" = .error .noTerm ∧
    parse_sexp "  " = .error .noTerm ∧
    parse_sexp "(a" = .error .unbalanced ∧
    parse_sexp "(a))" = .error .unbalanced ∧
    parse_sexp "(a) (b)" = .ok (.list [.str "a"]) := by
  refine ⟨?_, parse_empty_noTerm, by rfl, by rfl, by rfl, parse_two_top⟩
  intro s
  have hscan := runToks_isOk_eq_scan (tokenize s.data) [] []
  simp only [List.length_nil] at hscan
  constructor
  · intro h
    unfold parse_sexp at h
    cases hr : runToks (tokenize s.data) [] [] with
    | error e =>
      rw [hr] at hscan
      simpa using hscan.symm
    | ok out =>
      rw [hr] at h
      cases out with
      | nil => simp at h
      | cons t rest => simp at h
  · intro h
    rw [h] at hscan
    unfold parse_sexp
    cases hr : runToks (tokenize s.data) [] [] with
    | error e =>
      rw [runToks_error_unbalanced _ _ _ e hr]
    | ok out =>
      rw [hr] at hscan
      simp [Except.isOk, Except.toBool] at hscan

/-- Claim C7 witness: the equivalence applied at a concrete unbalanced
input. -/
theorem C7_witness : parse_sexp ")" = .error .unbalanced :=
  C7_parse_failure_amended.1 ")" |>.mpr (by rfl)

/-! ## Claim C10 (integral-valued numeric literals parse to Int) -/

/-- Claim C10: the parser never produces a float atom with an integral
value — any recognized number whose value is integral is converted with
`int()` — and concretely the token `1.0` decodes to the integer `1`. -/
theorem C10_integral_floats_demoted :
    (∀ (s : String) (t : SExp), parse_sexp s = .ok t → noIntFloat t = true) ∧
    parse_sexp "(x 1.0)" = .ok (.list [.str "x", .int 1]) := by
  refine ⟨?_, parse_x_one⟩
  intro s t h
  unfold parse_sexp at h
  cases hr : runToks (tokenize s.data) [] [] with
  | error e => rw [hr] at h; simp at h
  | ok out =>
    rw [hr] at h
    cases out with
    | nil => simp at h
    | cons t2 rest =>
      injection h with h
      subst h
      exact runToks_noIntFloat _ [] [] _ (by simp) (by simp) hr t2 (by simp)

/-- Claim C10 witness: the general statement applied at the concrete parse of
`(x 1.0)`. -/
theorem C10_witness : noIntFloat (.list [.str "x", .int 1]) = true :=
  C10_integral_floats_demoted.1 "(x 1.0)" _ C10_integral_floats_demoted.2


/-! ## Claim C9 (float token rule) -/

theorem matchNumIntCore_lookahead {neg : Bool} {cs1 : List Char} {q : ℚ} {r : List Char}
    (h : matchNumIntCore neg cs1 = some (q, r)) :
    numLookahead r = true ∧ q.den = 1 ∧ r <:+ cs1 := by
  unfold matchNumIntCore at h
  by_cases he : (cs1.takeWhile Char.isDigit).isEmpty
  · rw [if_pos he] at h; simp at h
  rw [if_neg he] at h
  by_cases hla : numLookahead (cs1.dropWhile Char.isDigit)
  · rw [if_pos hla] at h
    injection h with h2
    injection h2 with hq hr
    subst hr
    refine ⟨hla, ?_, List.dropWhile_suffix _⟩
    rw [← hq]
    unfold intValue
    by_cases hneg : neg
    · rw [if_pos hneg]
      show (-(digitsToNat (cs1.takeWhile Char.isDigit) : ℚ)).den = 1
      rw [show (-(digitsToNat (cs1.takeWhile Char.isDigit) : ℚ)).den =
        ((digitsToNat (cs1.takeWhile Char.isDigit) : ℚ)).den from rfl]
      exact Rat.den_natCast _
    · rw [if_neg hneg]
      exact Rat.den_natCast _
  · rw [if_neg hla] at h; simp at h

theorem matchNumDottedCore_lookahead {neg : Bool} {cs1 : List Char} {q : ℚ} {r : List Char}
    (h : matchNumDottedCore neg cs1 = some (q, r)) :
    numLookahead r = true ∧ (∃ pre, cs1 = pre ++ r ∧ '.' ∈ pre) ∧ r <:+ cs1 := by
  unfold matchNumDottedCore at h
  by_cases he : (cs1.takeWhile Char.isDigit).isEmpty
  · rw [if_pos he] at h; simp at h
  rw [if_neg he] at h
  cases hdw : cs1.dropWhile Char.isDigit with
  | nil => rw [hdw] at h; simp at h
  | cons c r2 =>
    rw [hdw] at h
    simp only [] at h
    by_cases hc : c = '.'
    · rw [if_pos hc] at h
      by_cases he2 : (r2.takeWhile Char.isDigit).isEmpty
      · rw [if_pos he2] at h; simp at h
      rw [if_neg he2] at h
      by_cases hla : numLookahead (r2.dropWhile Char.isDigit)
      · rw [if_pos hla] at h
        injection h with h2
        injection h2 with hq hr
        subst hr
        subst hc
        refine ⟨hla, ?_, ?_⟩
        · refine ⟨cs1.takeWhile Char.isDigit ++ '.' :: r2.takeWhile Char.isDigit, ?_, by simp⟩
          conv_lhs => rw [← List.takeWhile_append_dropWhile Char.isDigit cs1]
          rw [hdw]
          conv_lhs => rw [show r2 = r2.takeWhile Char.isDigit ++ r2.dropWhile Char.isDigit from
            (List.takeWhile_append_dropWhile Char.isDigit r2).symm]
          simp
        · have h1 : r2.dropWhile Char.isDigit <:+ r2 := List.dropWhile_suffix _
          have h2 : r2 <:+ cs1 := by
            have h3 : '.' :: r2 <:+ cs1 := hdw ▸ List.dropWhile_suffix _
            exact List.IsSuffix.trans (List.suffix_cons '.' r2) h3
          exact h1.trans h2
      · rw [if_neg hla] at h; simp at h
    · rw [if_neg hc] at h; simp at h

theorem stripSignPM_append (cs : List Char) :
    ∃ pre0, cs = pre0 ++ (stripSignPM cs).2 := by
  unfold stripSignPM
  split
  · exact ⟨['+'], rfl⟩
  · exact ⟨['-'], rfl⟩
  · exact ⟨[], rfl⟩

theorem stripSignM_append (cs : List Char) :
    ∃ pre0, cs = pre0 ++ (stripSignM cs).2 := by
  unfold stripSignM
  split
  · exact ⟨['-'], rfl⟩
  · exact ⟨[], rfl⟩

/-- Any successful number match ends right before a space or `)`, and any
match with a non-integral value came from the dotted alternative: the matched
text contains a decimal point. -/
theorem matchNum_float_shape {cs : List Char} {q : ℚ} {d : Bool} {rest : List Char}
    (h : matchNum cs = some (q, d, rest)) :
    (rest.head? = some ' ' ∨ rest.head? = some ')') ∧ rest <:+ cs ∧
      (q.den ≠ 1 → ∃ pre, cs = pre ++ rest ∧ '.' ∈ pre) := by
  unfold matchNum at h
  cases hdot : matchNumDotted cs with
  | some v =>
    rw [hdot] at h
    rcases v with ⟨q2, r2⟩
    simp only [] at h
    injection h with h2
    injection h2 with hq h3
    injection h3 with hd hr
    subst hq
    subst hr
    unfold matchNumDotted at hdot
    obtain ⟨hla, ⟨pre1, hsplit, hdotmem⟩, hsuf⟩ := matchNumDottedCore_lookahead hdot
    obtain ⟨pre0, hpre0⟩ := stripSignPM_append cs
    have hcs : cs = (pre0 ++ pre1) ++ r2 := by
      rw [hpre0, hsplit]
      simp
    refine ⟨?_, ?_, fun _ => ⟨pre0 ++ pre1, hcs, by simp [hdotmem]⟩⟩
    · cases r2 with
      | nil => simp [numLookahead] at hla
      | cons b r3 =>
        unfold numLookahead at hla
        simp only [Bool.or_eq_true, decide_eq_true_eq] at hla
        rcases hla with h | h
        · exact Or.inl (by rw [h]; rfl)
        · exact Or.inr (by rw [h]; rfl)
    · rw [hcs]
      exact (List.suffix_append _ _)
  | none =>
    rw [hdot] at h
    cases hint : matchNumInt cs with
    | none => rw [hint] at h; simp at h
    | some v =>
      rw [hint] at h
      rcases v with ⟨q2, r2⟩
      simp only [] at h
      injection h with h2
      injection h2 with hq h3
      injection h3 with hd hr
      subst hq
      subst hr
      unfold matchNumInt at hint
      obtain ⟨hla, hden, hsuf⟩ := matchNumIntCore_lookahead hint
      obtain ⟨pre0, hpre0⟩ := stripSignM_append cs
      refine ⟨?_, ?_, fun hcon => absurd hden hcon⟩
      · cases r2 with
        | nil => simp [numLookahead] at hla
        | cons b r3 =>
          unfold numLookahead at hla
          simp only [Bool.or_eq_true, decide_eq_true_eq] at hla
          rcases hla with h | h
          · exact Or.inl (by rw [h]; rfl)
          · exact Or.inr (by rw [h]; rfl)
      · refine hsuf.trans ?_
        conv_rhs => rw [hpre0]
        exact List.suffix_append _ _

theorem trySq_suffix {cs : List Char} {s r : List Char}
    (h : trySq cs = some (s, r)) : r <:+ cs := by
  unfold trySq at h
  cases cs with
  | nil => simp at h
  | cons c rest =>
    simp only [] at h
    by_cases hc : c = '"'
    · rw [if_pos hc] at h
      cases hg : ((sqCandidates '"' [] rest).filter fun p => sqLookahead p.2).getLast? with
      | none => rw [hg] at h; simp at h
      | some pr =>
        rw [hg] at h
        rcases pr with ⟨content, rr⟩
        simp only [] at h
        injection h with h2
        injection h2 with hq hr
        have hmem : (content, rr) ∈ sqCandidates '"' [] rest :=
          (List.mem_filter.mp (List.mem_of_mem_getLast? hg)).1
        have : ∀ (prev : Char) (acc l : List Char), ∀ p ∈ sqCandidates prev acc l, p.2 <:+ l := by
          intro prev acc l
          induction l generalizing prev acc with
          | nil => simp [sqCandidates]
          | cons c2 l2 ih =>
            intro p hp
            unfold sqCandidates at hp
            by_cases hq2 : c2 = '"'
            · rw [if_pos hq2] at hp
              by_cases hprev : prev = '\\'
              · rw [if_pos hprev] at hp
                rcases List.mem_cons.mp hp with rfl | hp2
                · exact List.suffix_cons c2 l2
                · exact (ih _ _ _ hp2).trans (List.suffix_cons c2 l2)
              · rw [if_neg hprev] at hp
                rcases List.mem_singleton.mp hp with rfl
                exact List.suffix_cons c2 l2
            · rw [if_neg hq2] at hp
              exact (ih _ _ _ hp).trans (List.suffix_cons c2 l2)
        have hsuf : rr <:+ rest := this '"' [] rest _ hmem
        rw [← hr]
        exact hsuf.trans (List.suffix_cons c rest)
    · rw [if_neg hc] at h; simp at h

/-- Every number token in the token stream originates from a successful
`matchNum` at some suffix of the input. -/
theorem tokenize_num_source :
    ∀ (f : ℕ) (cs : List Char) (q : ℚ), Tok.num q ∈ tokenizeF f cs →
      ∃ cs2 d rest, cs2 <:+ cs ∧ matchNum cs2 = some (q, d, rest) := by
  intro f
  induction f with
  | zero => intro cs q h; simp [tokenizeF] at h
  | succ f ih =>
    intro cs q h
    cases cs with
    | nil => simp [tokenizeF] at h
    | cons c rest =>
      unfold tokenizeF at h
      by_cases hsp : pySpace c
      · rw [if_pos hsp] at h
        obtain ⟨cs2, d, r2, hsuf, hm⟩ := ih rest q h
        exact ⟨cs2, d, r2, hsuf.trans (List.suffix_cons c rest), hm⟩
      rw [if_neg hsp] at h
      by_cases hlp : c = '('
      · rw [if_pos hlp] at h
        rcases List.mem_cons.mp h with hcon | h2
        · exact absurd hcon (by simp)
        · obtain ⟨cs2, d, r2, hsuf, hm⟩ := ih rest q h2
          exact ⟨cs2, d, r2, hsuf.trans (List.suffix_cons c rest), hm⟩
      rw [if_neg hlp] at h
      by_cases hrp : c = ')'
      · rw [if_pos hrp] at h
        rcases List.mem_cons.mp h with hcon | h2
        · exact absurd hcon (by simp)
        · obtain ⟨cs2, d, r2, hsuf, hm⟩ := ih rest q h2
          exact ⟨cs2, d, r2, hsuf.trans (List.suffix_cons c rest), hm⟩
      rw [if_neg hrp] at h
      cases hnum : matchNum (c :: rest) with
      | some v =>
        rcases v with ⟨q2, d2, r2⟩
        rw [hnum] at h
        simp only [List.mem_cons] at h
        rcases h with hcon | h2
        · injection hcon with hq
          subst hq
          exact ⟨c :: rest, d2, r2, List.suffix_rfl, hnum⟩
        · obtain ⟨cs2, d, r3, hsuf, hm⟩ := ih r2 q h2
          have hr2 : r2 <:+ c :: rest := (matchNum_float_shape hnum).2.1
          exact ⟨cs2, d, r3, hsuf.trans hr2, hm⟩
      | none =>
        rw [hnum] at h
        cases hsq : trySq (c :: rest) with
        | some v =>
          rcases v with ⟨s2, r2⟩
          rw [hsq] at h
          simp only [List.mem_cons] at h
          rcases h with hcon | h2
          · exact absurd hcon (by simp)
          · obtain ⟨cs2, d, r3, hsuf, hm⟩ := ih r2 q h2
            exact ⟨cs2, d, r3, hsuf.trans (trySq_suffix hsq), hm⟩
        | none =>
          rw [hsq] at h
          by_cases hsc : symChar c
          · rw [if_pos hsc] at h
            simp only [List.mem_cons] at h
            rcases h with hcon | h2
            · exact absurd hcon (by simp)
            · obtain ⟨cs2, d, r3, hsuf, hm⟩ := ih _ q h2
              exact ⟨cs2, d, r3,
                hsuf.trans ((List.dropWhile_suffix _).trans (List.suffix_cons c rest)), hm⟩
          · rw [if_neg hsc] at h
            obtain ⟨cs2, d, r2, hsuf, hm⟩ := ih rest q h
            exact ⟨cs2, d, r2, hsuf.trans (List.suffix_cons c rest), hm⟩

theorem tokenize_sym_general {c : Char} (rest : List Char)
    (hnum : matchNum (c :: rest) = none) (h3 : c ≠ '"') (hsc : symChar c) :
    tokenize (c :: rest) =
      .sym (c :: rest.takeWhile symChar) :: tokenize (rest.dropWhile symChar) := by
  have hsp : ¬pySpace c = true := by
    unfold symChar at hsc
    simp only [Bool.and_eq_true, Bool.not_eq_true'] at hsc
    simp [hsc.1.1.1]
  have hlp : c ≠ '(' := by
    unfold symChar at hsc
    simp only [Bool.and_eq_true, bne_iff_ne] at hsc
    exact hsc.1.1.2
  have hrp : c ≠ ')' := by
    unfold symChar at hsc
    simp only [Bool.and_eq_true, bne_iff_ne] at hsc
    exact hsc.1.2
  rw [tokenize_succ]
  simp only [tokenizeF]
  rw [if_neg hsp, if_neg hlp, if_neg hrp]
  rw [hnum, trySq_not_quote h3]
  rw [if_pos hsc]
  rw [tokenizeF_eq_tokenize]
  have := length_dropWhile_le symChar rest
  simp
  omega

theorem symChar_of_digit {c : Char} (h : c.isDigit) : symChar c = true := by
  unfold symChar
  have h1 : pySpace c = false := pySpace_eq_false_of_head (Or.inl h)
  have h2 : c ≠ '(' := fun hcon => by subst hcon; exact absurd h (by decide)
  have h3 : c ≠ ')' := fun hcon => by subst hcon; exact absurd h (by decide)
  have h4 : c ≠ '^' := fun hcon => by subst hcon; exact absurd h (by decide)
  simp [h1, h2, h3, h4]

/-- Claim C9: a token with a non-integral numeric value arises only from a
matched substring that contains a decimal point and is immediately followed
by a space or a closing parenthesis (in particular: by whitespace or a
closing parenthesis); and when the numeric alternatives fail at a position
starting with a digit, the characters are absorbed into a bare Symbol token,
never a number. -/
theorem C9_float_token_rule :
    (∀ (cs : List Char) (q : ℚ), Tok.num q ∈ tokenize cs → q.den ≠ 1 →
      ∃ (cs2 pre rest : List Char), cs2 <:+ cs ∧ cs2 = pre ++ rest ∧ '.' ∈ pre ∧
        (rest.head? = some ' ' ∨ rest.head? = some ')')) ∧
    (∀ (c : Char) (rest : List Char), c.isDigit → matchNum (c :: rest) = none →
      tokenize (c :: rest) =
        .sym (c :: rest.takeWhile symChar) :: tokenize (rest.dropWhile symChar)) := by
  constructor
  · intro cs q hmem hden
    obtain ⟨cs2, d, rest, hsuf, hm⟩ := tokenize_num_source cs.length cs q hmem
    obtain ⟨hhead, hrsuf, hpre⟩ := matchNum_float_shape hm
    obtain ⟨pre, hsplit, hdot⟩ := hpre hden
    exact ⟨cs2, pre, rest, hsuf, hsplit, hdot, hhead⟩
  · intro c rest hd hnone
    exact tokenize_sym_general rest hnone
      (fun hcon => by subst hcon; exact absurd hd (by decide)) (symChar_of_digit hd)

/-- Claim C9 witness: both parts at concrete inputs — `1.5)` lexes to a float
number token (dot present, `)` after), and `1.5x` (lookahead failed) lexes
to one symbol token. -/
theorem C9_witness :
    (∃ (cs2 pre rest : List Char), cs2 <:+ "(1.5)".data ∧ cs2 = pre ++ rest ∧ '.' ∈ pre ∧
      (rest.head? = some ' ' ∨ rest.head? = some ')')) ∧
    tokenize ('1' :: "5x".data) = .sym ('1' :: "5x".data.takeWhile symChar) ::
      tokenize ("5x".data.dropWhile symChar) := by
  constructor
  · refine C9_float_token_rule.1 "(1.5)".data (decValue false ['1'] ['5']) ?_ ?_
    · have hm := @matchNum_fracRun '1' [] '5' [] ')' [] (by decide) (by decide) (by decide)
      simp only [List.cons_append, List.nil_append] at hm
      have : "(1.5)".data = '(' :: '1' :: '.' :: '5' :: [')'] := rfl
      rw [this, tokenize_lparen, tokenize_num hm]
      simp
    · unfold decValue
      rw [show digitsToNat ['1'] = 1 from rfl, show digitsToNat ['5'] = 5 from rfl]
      norm_num
  · refine C9_float_token_rule.2 '1' "5x".data (by decide) ?_
    have h1 : matchNumDotted ('1' :: "5x".data) = none := by rfl
    have h2 : matchNumInt ('1' :: "5x".data) = none := by rfl
    unfold matchNum
    rw [h1, h2]


/-! ## `rstrip` lemmas -/

theorem rstrip_eq_nil_iff {c : Char} {l : List Char} :
    rstrip c l = [] ↔ ∀ x ∈ l, x = c := by
  unfold rstrip
  rw [List.reverse_eq_nil_iff, List.dropWhile_eq_nil_iff]
  constructor
  · intro h x hx
    simpa using h x (by simpa using hx)
  · intro h x hx
    simpa using h x (by simpa using hx)

theorem rstrip_append_of_ne_nil {c : Char} (X : List Char) {Y : List Char}
    (h : rstrip c Y ≠ []) : rstrip c (X ++ Y) = X ++ rstrip c Y := by
  unfold rstrip at h ⊢
  rw [List.reverse_append, List.dropWhile_append]
  have h2 : ¬(Y.reverse.dropWhile fun x => x = c).isEmpty = true := by
    intro hcon
    rw [List.isEmpty_iff] at hcon
    rw [hcon] at h
    simp at h
  rw [if_neg h2]
  rw [List.reverse_append, List.reverse_reverse]

theorem rstrip_append_all {c : Char} (X : List Char) {Y : List Char}
    (h : ∀ y ∈ Y, y = c) : rstrip c (X ++ Y) = rstrip c X := by
  unfold rstrip
  rw [List.reverse_append, List.dropWhile_append]
  have h2 : (Y.reverse.dropWhile fun x => x = c).isEmpty = true := by
    rw [List.isEmpty_iff, List.dropWhile_eq_nil_iff]
    intro x hx
    simpa using h x (by simpa using hx)
  rw [if_pos h2]

theorem rstrip_of_forall_ne {c : Char} {Y : List Char}
    (h : ∀ y ∈ Y, y ≠ c) : rstrip c Y = Y := by
  unfold rstrip
  cases hY : Y.reverse with
  | nil =>
    rw [List.reverse_eq_nil_iff] at hY
    simp [hY]
  | cons hd tl =>
    have hhd : hd ∈ Y := by rw [← List.mem_reverse, hY]; simp
    rw [List.dropWhile_cons]
    rw [if_neg (by simp only [decide_eq_true_eq]; exact h hd hhd)]
    rw [← hY, List.reverse_reverse]

theorem rstrip_prefixOf (c : Char) (l : List Char) : rstrip c l <+: l := by
  unfold rstrip
  rw [← List.reverse_suffix]
  rw [List.reverse_reverse]
  exact List.dropWhile_suffix _

theorem head_dropWhile_not {α} (p : α → Bool) :
    ∀ (l : List α) (x : α) (xs : List α), l.dropWhile p = x :: xs → ¬p x := by
  intro l
  induction l with
  | nil => intro x xs h; simp at h
  | cons a l ih =>
    intro x xs h
    rw [List.dropWhile_cons] at h
    by_cases ha : p a
    · rw [if_pos ha] at h
      exact ih x xs h
    · rw [if_neg ha] at h
      injection h with h1 h2
      subst h1
      exact ha

theorem rstrip_getLast_ne {c : Char} (l : List Char) :
    (rstrip c l).getLast? ≠ some c := by
  cases hr : rstrip c l with
  | nil => simp
  | cons x xs =>
    have : (rstrip c l).getLast? = ((rstrip c l).reverse).head? := by
      rw [List.head?_reverse]
    rw [hr] at this
    unfold rstrip at hr
    have hrev : l.reverse.dropWhile (fun x => x = c) = (x :: xs).reverse := by
      have := congrArg List.reverse hr
      rwa [List.reverse_reverse] at this
    cases hxs : (x :: xs).reverse with
    | nil => simp at hxs
    | cons y ys =>
      rw [hxs] at hrev
      have hy := head_dropWhile_not _ _ _ _ hrev
      simp only [decide_eq_true_eq] at hy
      rw [hr] at *
      rw [show (x :: xs).getLast? = ((x :: xs).reverse).head? from (List.head?_reverse _).symm]
      rw [hxs]
      simpa using hy

theorem digitsToNat_all_zero {l : List Char} (h : ∀ y ∈ l, y = '0') :
    digitsToNat l = 0 := by
  induction l with
  | nil => rfl
  | cons x xs ih =>
    have hx : x = '0' := h x (by simp)
    subst hx
    unfold digitsToNat at ih ⊢
    simp only [List.foldl_cons]
    rw [show 10 * 0 + digitVal '0' = 0 from by decide]
    exact ih fun y hy => h y (by simp [hy])

theorem padLeftZeros_digits {k : ℕ} {l : List Char} (h : ∀ c ∈ l, c.isDigit) :
    ∀ c ∈ padLeftZeros k l, c.isDigit := by
  intro c hc
  unfold padLeftZeros at hc
  rcases List.mem_append.mp hc with h2 | h2
  · rw [List.eq_of_mem_replicate h2]; decide
  · exact h c h2

theorem padLeftZeros_length {k : ℕ} {l : List Char} (h : l.length ≤ k) :
    (padLeftZeros k l).length = k := by
  unfold padLeftZeros
  simp
  omega

theorem digitsToNat_padLeftZeros (k : ℕ) (l : List Char) :
    digitsToNat (padLeftZeros k l) = digitsToNat l := by
  unfold padLeftZeros
  rw [digitsToNat_append, digitsToNat_replicate_zero]
  simp

theorem digit_ne_dot {c : Char} (h : c.isDigit) : c ≠ '.' := by
  intro hcon; subst hcon; exact absurd h (by decide)

theorem digit_ne_quote {c : Char} (h : c.isDigit) : c ≠ '"' := by
  intro hcon; subst hcon; exact absurd h (by decide)

/-! ## Round-half-even and fixed formatting -/

theorem rhe_intCast (n : ℤ) : rhe (n : ℚ) = n := by
  unfold rhe
  simp only [Int.floor_intCast, sub_self]
  rw [if_pos (by norm_num)]

theorem fixedChars_of_int {p : ℕ} {x : ℚ} {n : ℤ} (h : x * ((10 : ℚ)) ^ p = (n : ℚ)) :
    fixedChars p x =
      (if n < 0 then ['-'] else []) ++ natChars (n.natAbs / 10 ^ p) ++
        '.' :: padLeftZeros p (natChars (n.natAbs % 10 ^ p)) := by
  unfold fixedChars
  rw [h, rhe_intCast]

theorem pyRound_scale (q : ℚ) (p : ℕ) :
    pyRound p q * ((10 : ℚ)) ^ p = ((rhe (q * 10 ^ p) : ℤ) : ℚ) := by
  unfold pyRound
  field_simp

/-- The float branch of `val_to_str`, computed: sign, integer digits, and —
when the rounded value has a non-zero fractional part — a dot followed by
the fraction digits with trailing zeros stripped; otherwise no dot at all. -/
theorem val_to_str_float_eq (q : ℚ) :
    val_to_str_float (.finite q) =
      ⟨(if rhe (q * 10 ^ 6) < 0 then ['-'] else []) ++
        natChars ((rhe (q * 10 ^ 6)).natAbs / 10 ^ 6) ++
        (if (rhe (q * 10 ^ 6)).natAbs % 10 ^ 6 = 0 then []
         else '.' :: rstrip '0'
            (padLeftZeros 6 (natChars ((rhe (q * 10 ^ 6)).natAbs % 10 ^ 6))))⟩ := by
  have hfix : floatFmt6 (.finite q) =
      (if rhe (q * 10 ^ 6) < 0 then ['-'] else []) ++
        natChars ((rhe (q * 10 ^ 6)).natAbs / 10 ^ 6) ++
        '.' :: padLeftZeros 6 (natChars ((rhe (q * 10 ^ 6)).natAbs % 10 ^ 6)) := by
    show fixedChars 6 (pyRound 6 q) = _
    exact fixedChars_of_int (pyRound_scale q 6)
  show (⟨rstrip '.' (rstrip '0' (floatFmt6 (.finite q)))⟩ : String) = _
  rw [hfix]
  set n := rhe (q * 10 ^ 6) with hn
  set a := n.natAbs / 10 ^ 6 with ha
  set b := n.natAbs % 10 ^ 6 with hb
  set S : List Char := if n < 0 then ['-'] else [] with hS
  have hnatA : ∀ c ∈ natChars a, c.isDigit := natChars_digits a
  by_cases hbz : b = 0
  · rw [if_pos hbz]
    have hallzero : ∀ y ∈ padLeftZeros 6 (natChars b), y = '0' := by
      intro y hy
      rw [hbz] at hy
      unfold padLeftZeros at hy
      rcases List.mem_append.mp hy with h2 | h2
      · exact List.eq_of_mem_replicate h2
      · unfold natChars at h2
        rw [if_pos rfl] at h2
        simpa using h2
    have h1 : rstrip '0' (S ++ natChars a ++ '.' :: padLeftZeros 6 (natChars b)) =
        S ++ natChars a ++ ['.'] := by
      rw [show S ++ natChars a ++ '.' :: padLeftZeros 6 (natChars b) =
        (S ++ natChars a ++ ['.']) ++ padLeftZeros 6 (natChars b) from by simp]
      rw [rstrip_append_all _ hallzero]
      rw [show S ++ natChars a ++ ['.'] = (S ++ natChars a) ++ ['.'] from by simp]
      rw [rstrip_append_of_ne_nil _ (by rw [rstrip_of_forall_ne (by simp)]; simp)]
      rw [rstrip_of_forall_ne (by simp)]
    rw [h1]
    rw [show S ++ natChars a ++ ['.'] = (S ++ natChars a) ++ ['.'] from by simp]
    rw [rstrip_append_all _ (by simp)]
    rw [rstrip_append_of_ne_nil _ (c := '.')
      (by rw [rstrip_of_forall_ne fun y hy => digit_ne_dot (hnatA y hy)]
          exact natChars_ne_nil a)]
    rw [rstrip_of_forall_ne fun y hy => digit_ne_dot (hnatA y hy)]
    simp
  · rw [if_neg hbz]
    have hstrip_ne : rstrip '0' (padLeftZeros 6 (natChars b)) ≠ [] := by
      intro hcon
      rw [rstrip_eq_nil_iff] at hcon
      have := digitsToNat_all_zero hcon
      rw [digitsToNat_padLeftZeros, digitsToNat_natChars] at this
      exact hbz this
    have h1 : rstrip '0' (S ++ natChars a ++ '.' :: padLeftZeros 6 (natChars b)) =
        S ++ natChars a ++ '.' :: rstrip '0' (padLeftZeros 6 (natChars b)) := by
      rw [show S ++ natChars a ++ '.' :: padLeftZeros 6 (natChars b) =
        (S ++ natChars a ++ ['.']) ++ padLeftZeros 6 (natChars b) from by simp]
      rw [rstrip_append_of_ne_nil _ hstrip_ne]
      simp
    rw [h1]
    have hdig : ∀ y ∈ rstrip '0' (padLeftZeros 6 (natChars b)), y.isDigit := by
      intro y hy
      exact padLeftZeros_digits (natChars_digits b) y
        (List.IsPrefix.mem hy (rstrip_prefixOf _ _))
    rw [show S ++ natChars a ++ '.' :: rstrip '0' (padLeftZeros 6 (natChars b)) =
      (S ++ natChars a ++ ['.']) ++ rstrip '0' (padLeftZeros 6 (natChars b)) from by simp]
    rw [rstrip_append_of_ne_nil _
      (by rw [rstrip_of_forall_ne fun y hy => digit_ne_dot (hdig y hy)]; exact hstrip_ne)]
    rw [rstrip_of_forall_ne fun y hy => digit_ne_dot (hdig y hy)]


theorem fixedChars_split (p : ℕ) (x : ℚ) :
    fixedChars p x = (if rhe (x * (10 : ℚ) ^ p) < 0 then ['-'] else []) ++
      natChars ((rhe (x * (10 : ℚ) ^ p)).natAbs / 10 ^ p) ++
      '.' :: padLeftZeros p (natChars ((rhe (x * (10 : ℚ) ^ p)).natAbs % 10 ^ p)) := rfl

theorem rstrip_pad_natChars_ne_nil {k b : ℕ} (hbz : b ≠ 0) :
    rstrip '0' (padLeftZeros k (natChars b)) ≠ [] := by
  intro hcon
  rw [rstrip_eq_nil_iff] at hcon
  have := digitsToNat_all_zero hcon
  rw [digitsToNat_padLeftZeros, digitsToNat_natChars] at this
  exact hbz this

theorem val_to_str_float_one : val_to_str_float (.finite 1) = "1" := by
  rw [val_to_str_float_eq]
  rw [show rhe ((1 : ℚ) * 10 ^ 6) = 1000000 from by
    rw [show (1 : ℚ) * 10 ^ 6 = ((1000000 : ℤ) : ℚ) from by norm_num, rhe_intCast]]
  decide

theorem val_to_str_float_three_halves : val_to_str_float (.finite (3 / 2)) = "1.5" := by
  rw [val_to_str_float_eq]
  rw [show rhe ((3 / 2 : ℚ) * 10 ^ 6) = 1500000 from by
    rw [show (3 / 2 : ℚ) * 10 ^ 6 = ((1500000 : ℤ) : ℚ) from by norm_num, rhe_intCast]]
  decide

/-- C5: counterexample. The spec claims trailing zeros are stripped also when
a precision override is declared, but the override branch of
`SexprAuto._sexpr_inter_tuple` emits `f"{val:.{precision}f}"` verbatim:
1.5 at precision 3 renders as `1.500`, while the default branch strips to
`1.5`. -/
theorem C5_counterexample :
    sexpr_inter_tuple_precision 3 (.finite (3 / 2)) = "1.500" ∧
    (sexpr_inter_tuple_precision 3 (.finite (3 / 2))).data.getLast? = some '0' ∧
    val_to_str_float (.finite (3 / 2)) = "1.5" := by
  have h : sexpr_inter_tuple_precision 3 (.finite (3 / 2)) = "1.500" := by
    show (⟨fixedChars 3 ((3 : ℚ) / 2)⟩ : String) = "1.500"
    rw [fixedChars_of_int (n := 1500) (by norm_num)]
    decide
  refine ⟨h, ?_, val_to_str_float_three_halves⟩
  rw [h]
  decide

/-- C5 (amended): float encoding. On the default path (`val_to_str`, 6
fractional digits) the spec examples hold — `encode(1.0) = "1"`,
`encode(1.5) = "1.5"` — and every finite float renders as an optional sign,
a non-empty digit run, and an optional fractional part `.` followed by a
non-empty digit run not ending in `0` (so: no scientific notation, at least
one digit before the point, trailing zeros and a bare trailing point
stripped). Under a precision override, however, the value is rendered with
EXACTLY `p` fractional digits after the point, trailing zeros included —
nothing is stripped on that branch. -/
theorem C5_float_encoding_amended :
    val_to_str_float (.finite 1) = "1" ∧
    val_to_str_float (.finite (3 / 2)) = "1.5" ∧
    (∀ q : ℚ, ∃ sign A F, (val_to_str_float (.finite q)).data = sign ++ A ++ F ∧
      (sign = [] ∨ sign = ['-']) ∧ A ≠ [] ∧ (∀ c ∈ A, c.isDigit) ∧
      (F = [] ∨ ∃ Fr, F = '.' :: Fr ∧ Fr ≠ [] ∧ (∀ c ∈ Fr, c.isDigit) ∧
        Fr.getLast? ≠ some '0')) ∧
    (∀ (p : ℕ) (q : ℚ), 0 < p →
      ∃ pre F, (sexpr_inter_tuple_precision p (.finite q)).data = pre ++ '.' :: F ∧
        F.length = p ∧ ∀ c ∈ F, c.isDigit) := by
  refine ⟨val_to_str_float_one, val_to_str_float_three_halves, ?_, ?_⟩
  · intro q
    rw [val_to_str_float_eq]
    refine ⟨if rhe (q * 10 ^ 6) < 0 then ['-'] else [],
      natChars ((rhe (q * 10 ^ 6)).natAbs / 10 ^ 6),
      if (rhe (q * 10 ^ 6)).natAbs % 10 ^ 6 = 0 then []
        else '.' :: rstrip '0' (padLeftZeros 6 (natChars ((rhe (q * 10 ^ 6)).natAbs % 10 ^ 6))),
      rfl, ?_, natChars_ne_nil _, natChars_digits _, ?_⟩
    · by_cases hneg : rhe (q * 10 ^ 6) < 0
      · right; rw [if_pos hneg]
      · left; rw [if_neg hneg]
    · by_cases hbz : (rhe (q * 10 ^ 6)).natAbs % 10 ^ 6 = 0
      · left; rw [if_pos hbz]
      · right
        refine ⟨rstrip '0' (padLeftZeros 6 (natChars ((rhe (q * 10 ^ 6)).natAbs % 10 ^ 6))),
          by rw [if_neg hbz], rstrip_pad_natChars_ne_nil hbz, ?_, rstrip_getLast_ne _⟩
        intro c hc
        exact padLeftZeros_digits (natChars_digits _) c
          (List.IsPrefix.mem hc (rstrip_prefixOf _ _))
  · intro p q hp
    refine ⟨(if rhe (q * (10 : ℚ) ^ p) < 0 then ['-'] else []) ++
        natChars ((rhe (q * (10 : ℚ) ^ p)).natAbs / 10 ^ p),
      padLeftZeros p (natChars ((rhe (q * (10 : ℚ) ^ p)).natAbs % 10 ^ p)), ?_, ?_, ?_⟩
    · show fixedChars p q = _
      rw [fixedChars_split]
    · exact padLeftZeros_length
        (natChars_length hp (Nat.mod_lt _ (pow_pos (by norm_num) p)))
    · exact padLeftZeros_digits (natChars_digits _)

/-- C5: witness instantiating the amended theorem at concrete inputs. -/
theorem C5_witness :
    val_to_str_float (.finite (3 / 2)) = "1.5" ∧
    (∃ pre F, (sexpr_inter_tuple_precision 3 (.finite (3 / 2))).data = pre ++ '.' :: F ∧
      F.length = 3 ∧ ∀ c ∈ F, c.isDigit) :=
  ⟨C5_float_encoding_amended.2.1, C5_float_encoding_amended.2.2.2 3 (3 / 2) (by decide)⟩


theorem tokenize_seg_width_num :
    tokenize "(segment (width 2.5))".data =
      [.lparen, .sym "segment".data, .lparen, .sym "width".data,
        .num (5 / 2), .rparen, .rparen] := by
  have hdata : "(segment (width 2.5))".data =
      ['(', 's', 'e', 'g', 'm', 'e', 'n', 't', ' ', '(', 'w', 'i', 'd', 't', 'h', ' ',
        '2', '.', '5', ')', ')'] := rfl
  rw [hdata, tokenize_lparen]
  rw [show ('s' :: 'e' :: 'g' :: 'm' :: 'e' :: 'n' :: 't' :: ' ' :: '(' :: 'w' :: 'i' ::
      'd' :: 't' :: 'h' :: ' ' :: '2' :: '.' :: '5' :: ')' :: [')'] : List Char) =
    ('s' :: ['e', 'g', 'm', 'e', 'n', 't']) ++ ' ' ::
      ['(', 'w', 'i', 'd', 't', 'h', ' ', '2', '.', '5', ')', ')'] from rfl]
  rw [tokenize_word 's' ['e', 'g', 'm', 'e', 'n', 't']
    ['(', 'w', 'i', 'd', 't', 'h', ' ', '2', '.', '5', ')', ')']
    (by decide) (by decide) (by decide) (by decide) (by decide) (by decide)]
  rw [tokenize_space (by decide), tokenize_lparen]
  rw [show ('w' :: 'i' :: 'd' :: 't' :: 'h' :: ' ' :: '2' :: '.' :: '5' :: ')' ::
      [')'] : List Char) =
    ('w' :: ['i', 'd', 't', 'h']) ++ ' ' :: ['2', '.', '5', ')', ')'] from rfl]
  rw [tokenize_word 'w' ['i', 'd', 't', 'h'] ['2', '.', '5', ')', ')']
    (by decide) (by decide) (by decide) (by decide) (by decide) (by decide)]
  rw [tokenize_space (by decide)]
  have hm := @matchNum_fracRun '2' [] '5' [] ')' [')'] (by decide) (by decide) (by decide)
  simp only [List.cons_append, List.nil_append] at hm
  rw [tokenize_num hm]
  rw [tokenize_rparen, tokenize_rparen, tokenize_nil]
  have hv : decValue false ['2'] ['5'] = 5 / 2 := by
    unfold decValue
    rw [show digitsToNat ['2'] = 2 from rfl, show digitsToNat ['5'] = 5 from rfl]
    norm_num
  rw [hv]

theorem parse_seg_width_num :
    parse_sexp "(segment (width 2.5))" =
      .ok (.list [.str "segment", .list [.str "width", .float (5 / 2)]]) := by
  unfold parse_sexp
  rw [tokenize_seg_width_num]
  have hr : runToks [.lparen, .sym "segment".data, .lparen, .sym "width".data,
      .num (5 / 2), .rparen, .rparen] [] [] =
      .ok [.list [.str "segment", .list [.str "width", .float (5 / 2)]]] := by
    simp only [runToks]
    norm_num
  rw [hr]

theorem parse_seg_width_sym :
    parse_sexp "(segment (width 2.5\n))" =
      .ok (.list [.str "segment", .list [.str "width", .str "2.5"]]) := by rfl

/-- C8: counterexample. Whitespace reformatting is NOT always neutral: the
number lookahead of `term_regex` accepts only a literal space or `)`, so
moving the closing bracket of `(width 2.5)` to the next line turns the
number token `2.5` into the symbol token `"2.5"`, and the decoded `segment`
records differ (`width` holds a float in one and a string in the other). -/
theorem C8_counterexample :
    parse_sexp "(segment (width 2.5))" =
      .ok (.list [.str "segment", .list [.str "width", .float (5 / 2)]]) ∧
    parse_sexp "(segment (width 2.5\n))" =
      .ok (.list [.str "segment", .list [.str "width", .str "2.5"]]) ∧
    Segment.from_sexpr (.list [.str "segment", .list [.str "width", .float (5 / 2)]]) =
      some { width := .float (5 / 2) } ∧
    Segment.from_sexpr (.list [.str "segment", .list [.str "width", .str "2.5"]]) =
      some { width := .str "2.5" } ∧
    ({ width := SExp.float (5 / 2) } : Segment) ≠ { width := SExp.str "2.5" } :=
  ⟨parse_seg_width_num, parse_seg_width_sym, by rfl, by rfl, by decide⟩

/-- C8 (amended): the tokenizer always skips a leading whitespace character,
so whitespace between tokens is invisible to the token stream as long as
every token still matches; a reformatting that keeps a space or `)`
immediately after each number leaves parse and decode unchanged (shown here
on a `segment` with extra spaces, an extra newline and extra indentation).
Reformattings that put any other character — a newline included — right
after a number change the token stream (see the counterexample). -/
theorem C8_whitespace_amended :
    (∀ (c : Char) (cs : List Char), pySpace c → tokenize (c :: cs) = tokenize cs) ∧
    ((parse_sexp "(segment (layer \"F.Cu\"))").map Segment.from_sexpr =
      (parse_sexp "(segment\n  (layer \"F.Cu\" ) )").map Segment.from_sexpr) ∧
    (parse_sexp "(segment (layer \"F.Cu\"))").map Segment.from_sexpr =
      .ok (some { layer := .str "F.Cu" }) := by
  refine ⟨fun c cs h => tokenize_space h cs, ?_, ?_⟩ <;> rfl

/-- C8: witness instantiating the amended theorem at a concrete space. -/
theorem C8_witness : tokenize (' ' :: ['x']) = tokenize ['x'] :=
  C8_whitespace_amended.1 ' ' ['x'] (by decide)


/-! ## Recomposition of `rstrip` output -/

theorem rstrip_recompose (c : Char) (l : List Char) :
    rstrip c l ++ List.replicate (l.length - (rstrip c l).length) c = l := by
  have hsplit : l.reverse.takeWhile (fun x => x = c) ++
      l.reverse.dropWhile (fun x => x = c) = l.reverse :=
    List.takeWhile_append_dropWhile _ _
  have h1 : l = rstrip c l ++ (l.reverse.takeWhile (fun x => x = c)).reverse := by
    conv_lhs => rw [← List.reverse_reverse l, ← hsplit]
    rw [List.reverse_append]
    rfl
  have hall : ∀ b ∈ (l.reverse.takeWhile fun x => x = c), b = c := by
    intro b hb
    have := List.mem_takeWhile_imp hb
    simpa using this
  have hrep : (l.reverse.takeWhile fun x => x = c) =
      List.replicate (l.reverse.takeWhile fun x => x = c).length c :=
    List.eq_replicate_of_mem hall
  have hlen : l.length = (rstrip c l).length +
      (l.reverse.takeWhile fun x => x = c).length := by
    conv_lhs => rw [h1]
    simp
  conv_rhs => rw [h1]
  congr 1
  rw [hrep, List.reverse_replicate]
  congr 1
  omega

/-! ## Value arithmetic for the rendered float -/

theorem q_of_scaled {q : ℚ} {n : ℤ} (hn : q * 10 ^ 6 = n) : q = (n : ℚ) / 10 ^ 6 := by
  rw [eq_div_iff (by norm_num)]
  exact hn

theorem natAbs_split_q (n : ℤ) :
    ((n.natAbs / 10 ^ 6 : ℕ) : ℚ) + ((n.natAbs % 10 ^ 6 : ℕ) : ℚ) / 10 ^ 6 =
      (n.natAbs : ℚ) / 10 ^ 6 := by
  have h := Nat.div_add_mod n.natAbs (10 ^ 6)
  have hq : ((10 ^ 6 * (n.natAbs / 10 ^ 6) + n.natAbs % 10 ^ 6 : ℕ) : ℚ) = (n.natAbs : ℚ) := by
    rw [h]
  push_cast at hq
  field_simp
  linarith

theorem decFrac_eq {Fr : List Char} {k b : ℕ} (hval : digitsToNat Fr * 10 ^ k = b)
    (hlen : Fr.length + k = 6) :
    (digitsToNat Fr : ℚ) / 10 ^ Fr.length = (b : ℚ) / 10 ^ 6 := by
  subst hval
  rw [← hlen, pow_add]
  push_cast
  rw [div_eq_div_iff (by positivity) (by positivity)]
  ring

/-- The fraction run of the default rendering: value and length bookkeeping. -/
theorem frac_run_facts {b : ℕ} (hb : b < 10 ^ 6) :
    digitsToNat (rstrip '0' (padLeftZeros 6 (natChars b))) *
        10 ^ (6 - (rstrip '0' (padLeftZeros 6 (natChars b))).length) = b ∧
      (rstrip '0' (padLeftZeros 6 (natChars b))).length +
        (6 - (rstrip '0' (padLeftZeros 6 (natChars b))).length) = 6 := by
  set P := padLeftZeros 6 (natChars b) with hP
  have hPlen : P.length = 6 :=
    padLeftZeros_length (natChars_length (by norm_num) hb)
  have hrec := rstrip_recompose '0' P
  have hrlen : (rstrip '0' P).length ≤ P.length := by
    conv_rhs => rw [← hrec]
    simp
  have hPval : digitsToNat P = b := by
    rw [hP, digitsToNat_padLeftZeros, digitsToNat_natChars]
  rw [hPlen] at hrlen
  constructor
  · have hv : digitsToNat (rstrip '0' P ++
        List.replicate (P.length - (rstrip '0' P).length) '0') = digitsToNat P := by
      rw [hrec]
    rw [digitsToNat_append, digitsToNat_replicate_zero] at hv
    simp only [List.length_replicate] at hv
    rw [hPval, hPlen] at hv
    omega
  · omega

/-! ## Tokenizing the default float rendering -/

/-- The rendered default-precision float of a canonical value, followed by a
space or `)`, lexes to exactly one number token carrying the value back. -/
theorem tokenize_float_chars {q : ℚ} {n : ℤ} (hn : q * 10 ^ 6 = n) {b2 : Char}
    {r : List Char} (hla : numLookahead (b2 :: r)) :
    tokenize ((val_to_str_float (.finite q)).data ++ b2 :: r) =
      .num q :: tokenize (b2 :: r) := by
  have hrhe : rhe (q * 10 ^ 6) = n := by rw [hn, rhe_intCast]
  have hdata : (val_to_str_float (.finite q)).data =
      (if n < 0 then ['-'] else []) ++ natChars (n.natAbs / 10 ^ 6) ++
      (if n.natAbs % 10 ^ 6 = 0 then []
        else '.' :: rstrip '0' (padLeftZeros 6 (natChars (n.natAbs % 10 ^ 6)))) := by
    rw [val_to_str_float_eq, hrhe]
  have hqval : q = (n : ℚ) / 10 ^ 6 := q_of_scaled hn
  have hmod : n.natAbs % 10 ^ 6 < 10 ^ 6 := Nat.mod_lt _ (by norm_num)
  obtain ⟨hfv, hfl⟩ := frac_run_facts hmod
  set a := n.natAbs / 10 ^ 6 with ha
  set b := n.natAbs % 10 ^ 6 with hb
  set Fr := rstrip '0' (padLeftZeros 6 (natChars b)) with hFr
  have hAdig := natChars_digits a
  have hFdig : ∀ c ∈ Fr, c.isDigit := by
    intro c hc
    exact padLeftZeros_digits (natChars_digits b) c
      (List.IsPrefix.mem hc (rstrip_prefixOf _ _))
  have habs : ((n.natAbs : ℚ)) = (a : ℚ) * 10 ^ 6 + (b : ℚ) := by
    have h := Nat.div_add_mod n.natAbs (10 ^ 6)
    have : ((10 ^ 6 * a + b : ℕ) : ℚ) = (n.natAbs : ℚ) := by rw [ha, hb, h]
    push_cast at this
    linarith
  cases hA : natChars a with
  | nil => exact absurd hA (natChars_ne_nil a)
  | cons a0 A2 =>
  have hAdig2 : ∀ c ∈ a0 :: A2, c.isDigit := by rw [← hA]; exact hAdig
  by_cases hbz : b = 0
  · -- integer rendering
    have hval : intValue false (a0 :: A2) = (a : ℚ) := by
      unfold intValue
      rw [if_neg (by simp), ← hA, digitsToNat_natChars]
    have hqa : q = (if n < 0 then -(a : ℚ) else (a : ℚ)) := by
      rw [hqval]
      have hb0 : (b : ℚ) = 0 := by rw [hbz]; norm_num
      by_cases hneg : n < 0
      · rw [if_pos hneg]
        have : ((n.natAbs : ℚ)) = -(n : ℚ) := by
          rw [Int.cast_natAbs]
          simp [abs_of_neg (show (n : ℚ) < 0 by exact_mod_cast hneg)]
        rw [habs, hb0] at this
        field_simp
        linarith
      · rw [if_neg hneg]
        have : ((n.natAbs : ℚ)) = (n : ℚ) := by
          rw [Int.cast_natAbs]
          simp [abs_of_nonneg (show (0 : ℚ) ≤ (n : ℚ) by exact_mod_cast not_lt.mp hneg)]
        rw [habs, hb0] at this
        field_simp
        linarith
    rw [hdata, if_pos hbz, hA]
    by_cases hneg : n < 0
    · rw [if_pos hneg]
      simp only [List.cons_append, List.nil_append, List.append_nil]
      have hm := matchNum_negIntRun hAdig2 hla
      simp only [List.cons_append] at hm
      rw [tokenize_num hm]
      rw [show intValue true (a0 :: A2) = -intValue false (a0 :: A2) from by
        unfold intValue; simp]
      rw [hval, hqa, if_pos hneg]
    · rw [if_neg hneg]
      simp only [List.nil_append, List.append_nil, List.cons_append]
      have hm := matchNum_intRun hAdig2 hla
      simp only [List.cons_append] at hm
      rw [tokenize_num hm, hval, hqa, if_neg hneg]
  · -- dotted rendering
    have hFrne : Fr ≠ [] := rstrip_pad_natChars_ne_nil hbz
    cases hF : Fr with
    | nil => exact absurd hF hFrne
    | cons f0 F2 =>
    have hFdig2 : ∀ c ∈ f0 :: F2, c.isDigit := by rw [← hF]; exact hFdig
    have hval : decValue false (a0 :: A2) (f0 :: F2) = (a : ℚ) + (b : ℚ) / 10 ^ 6 := by
      unfold decValue
      rw [if_neg (by simp), ← hA, ← hF, digitsToNat_natChars]
      rw [decFrac_eq hfv hfl]
    have hqa : q = (if n < 0 then -((a : ℚ) + (b : ℚ) / 10 ^ 6)
        else (a : ℚ) + (b : ℚ) / 10 ^ 6) := by
      rw [hqval]
      by_cases hneg : n < 0
      · rw [if_pos hneg]
        have h2 : ((n.natAbs : ℚ)) = -(n : ℚ) := by
          rw [Int.cast_natAbs]
          simp [abs_of_neg (show (n : ℚ) < 0 by exact_mod_cast hneg)]
        rw [habs] at h2
        field_simp
        linarith
      · rw [if_neg hneg]
        have h2 : ((n.natAbs : ℚ)) = (n : ℚ) := by
          rw [Int.cast_natAbs]
          simp [abs_of_nonneg (show (0 : ℚ) ≤ (n : ℚ) by exact_mod_cast not_lt.mp hneg)]
        rw [habs] at h2
        field_simp
        linarith
    rw [hdata, if_neg hbz, hA, hF]
    by_cases hneg : n < 0
    · rw [if_pos hneg]
      simp only [List.cons_append, List.nil_append, List.append_assoc]
      have hm := matchNum_negFracRun hAdig2 hFdig2 hla
      simp only [List.cons_append] at hm
      rw [tokenize_num hm]
      rw [show decValue true (a0 :: A2) (f0 :: F2) =
        -decValue false (a0 :: A2) (f0 :: F2) from by unfold decValue; simp]
      rw [hval, hqa, if_pos hneg]
    · rw [if_neg hneg]
      simp only [List.cons_append, List.nil_append, List.append_assoc]
      have hm := matchNum_fracRun hAdig2 hFdig2 hla
      simp only [List.cons_append] at hm
      rw [tokenize_num hm, hval, hqa, if_neg hneg]


/-! ## Field-level views of the `GrCurve` serialization -/

/-- Tokens contributed by the `locked` field. -/
def lockedToks : Option Bool → List Tok
  | none => []
  | some b => [.lparen, .sym "locked".data, .sym (val_to_str_bool b).data, .rparen]

/-- Tokens contributed by the `width` field. -/
def widthToks : Option ℚ → List Tok
  | none => []
  | some q => [.lparen, .sym "width".data, .num q, .rparen]

/-- Tokens contributed by an `Optional[str]` field. -/
def optStrToks (name : String) : Option String → List Tok
  | none => []
  | some s => [.lparen, .sym name.data, .sq s.data, .rparen]

/-- Parsed child term contributed by the `locked` field. -/
def lockedItems : Option Bool → List SExp
  | none => []
  | some b => [.list [.str "locked", .str (val_to_str_bool b)]]

/-- Parsed child term contributed by the `width` field. -/
def widthItems : Option ℚ → List SExp
  | none => []
  | some q => [.list [.str "width", if q.den = 1 then .int q.num else .float q]]

/-- Parsed child term contributed by an `Optional[str]` field. -/
def optStrItems (name : String) : Option String → List SExp
  | none => []
  | some s => [.list [.str name, .str s]]

theorem escapeChars_clean {s : List Char} (hq : '"' ∉ s) : escapeChars s = s := by
  induction s with
  | nil => rfl
  | cons c r ih =>
    have hc : c ≠ '"' := fun hcon => hq (hcon ▸ List.mem_cons_self c r)
    have hr : '"' ∉ r := fun hcon => hq (List.mem_cons_of_mem c hcon)
    unfold escapeChars
    split
    · rename_i heq
      injection heq with h1 h2
      exact absurd h1 hc
    · rename_i c2 r2 heq
      injection heq with h1 h2
      subst h1
      subst h2
      rw [ih hr]
    · rename_i heq
      exact absurd heq (List.cons_ne_nil c r)

/-! ## Tokenizing each field string -/

theorem tokenize_lockedFieldStr (o : Option Bool) (r : List Char) :
    tokenize ((lockedFieldStr o).data ++ r) = lockedToks o ++ tokenize r := by
  rcases o with _ | _ | _
  · rfl
  · -- false: "  (locked no)"
    have hdata : (lockedFieldStr (some false)).data =
        ' ' :: ' ' :: '(' :: 'l' :: 'o' :: 'c' :: 'k' :: 'e' :: 'd' :: ' ' ::
          'n' :: 'o' :: [')'] := rfl
    rw [hdata]
    simp only [List.cons_append, List.nil_append]
    rw [tokenize_space (by decide), tokenize_space (by decide), tokenize_lparen]
    rw [show ('l' :: 'o' :: 'c' :: 'k' :: 'e' :: 'd' :: ' ' :: 'n' :: 'o' :: ')' :: r :
        List Char) = ('l' :: ['o', 'c', 'k', 'e', 'd']) ++ ' ' ::
        ('n' :: 'o' :: ')' :: r) from rfl]
    rw [tokenize_word 'l' ['o', 'c', 'k', 'e', 'd'] ('n' :: 'o' :: ')' :: r)
      (by decide) (by decide) (by decide) (by decide) (by decide) (by decide)]
    rw [tokenize_space (by decide)]
    rw [show ('n' :: 'o' :: ')' :: r : List Char) = ('n' :: ['o']) ++ ')' :: r from rfl]
    rw [tokenize_word 'n' ['o'] r
      (by decide) (by decide) (by decide) (by decide) (by decide) (by decide)]
    rw [tokenize_rparen]
    rfl
  · -- true: "  (locked yes)"
    have hdata : (lockedFieldStr (some true)).data =
        ' ' :: ' ' :: '(' :: 'l' :: 'o' :: 'c' :: 'k' :: 'e' :: 'd' :: ' ' ::
          'y' :: 'e' :: 's' :: [')'] := rfl
    rw [hdata]
    simp only [List.cons_append, List.nil_append]
    rw [tokenize_space (by decide), tokenize_space (by decide), tokenize_lparen]
    rw [show ('l' :: 'o' :: 'c' :: 'k' :: 'e' :: 'd' :: ' ' :: 'y' :: 'e' :: 's' :: ')' :: r :
        List Char) = ('l' :: ['o', 'c', 'k', 'e', 'd']) ++ ' ' ::
        ('y' :: 'e' :: 's' :: ')' :: r) from rfl]
    rw [tokenize_word 'l' ['o', 'c', 'k', 'e', 'd'] ('y' :: 'e' :: 's' :: ')' :: r)
      (by decide) (by decide) (by decide) (by decide) (by decide) (by decide)]
    rw [tokenize_space (by decide)]
    rw [show ('y' :: 'e' :: 's' :: ')' :: r : List Char) = ('y' :: ['e', 's']) ++ ')' :: r
      from rfl]
    rw [tokenize_word 'y' ['e', 's'] r
      (by decide) (by decide) (by decide) (by decide) (by decide) (by decide)]
    rw [tokenize_rparen]
    rfl

theorem tokenize_widthFieldStr {o : Option ℚ} (h : ∀ q, o = some q → canonicalQ q)
    (r : List Char) :
    tokenize ((widthFieldStr o).data ++ r) = widthToks o ++ tokenize r := by
  rcases o with _ | q
  · rfl
  · obtain ⟨n, hn⟩ := h q rfl
    have hW : (val_to_str_float (.finite q)) ≠ "" := by
      intro hcon
      have hd := congrArg String.data hcon
      rw [val_to_str_float_eq] at hd
      have : natChars ((rhe (q * 10 ^ 6)).natAbs / 10 ^ 6) = [] := by
        rcases List.append_eq_nil.mp (List.append_eq_nil.mp hd).1 with ⟨_, h2⟩
        exact h2
      exact natChars_ne_nil _ this
    have hdata : (widthFieldStr (some q)).data =
        ' ' :: ' ' :: '(' :: 'w' :: 'i' :: 'd' :: 't' :: 'h' :: ' ' ::
          ((val_to_str_float (.finite q)).data ++ [')']) := by
      show (maybeElem (maybeNamed 1 "width" (val_to_str_float (.finite q)))).data = _
      rw [maybeNamed, if_neg hW]
      rw [maybeElem, if_neg (by
        intro hcon
        have := congrArg String.data hcon
        simp [String.data_append] at this)]
      simp [String.data_append]
    rw [hdata]
    simp only [List.cons_append, List.nil_append, List.append_assoc]
    rw [tokenize_space (by decide), tokenize_space (by decide), tokenize_lparen]
    rw [show ('w' :: 'i' :: 'd' :: 't' :: 'h' :: ' ' ::
        ((val_to_str_float (.finite q)).data ++ ')' :: r) : List Char) =
      ('w' :: ['i', 'd', 't', 'h']) ++ ' ' ::
        ((val_to_str_float (.finite q)).data ++ ')' :: r) from rfl]
    rw [tokenize_word 'w' ['i', 'd', 't', 'h'] ((val_to_str_float (.finite q)).data ++ ')' :: r)
      (by decide) (by decide) (by decide) (by decide) (by decide) (by decide)]
    rw [tokenize_space (by decide)]
    rw [tokenize_float_chars hn (by rfl)]
    rw [tokenize_rparen]
    rfl

theorem tokenize_layerFieldStr {o : Option String} (h : ∀ s, o = some s → canonicalStr s)
    (r : List Char) :
    tokenize ((optStrFieldStr "layer" o).data ++ r) = optStrToks "layer" o ++ tokenize r := by
  rcases o with _ | s
  · rfl
  · obtain ⟨hq, hbs⟩ := h s rfl
    have hdata : (optStrFieldStr "layer" (some s)).data =
        ' ' :: ' ' :: '(' :: 'l' :: 'a' :: 'y' :: 'e' :: 'r' :: ' ' :: '"' ::
          ((escapeChars s.data ++ ['"']) ++ [')']) := rfl
    rw [hdata, escapeChars_clean hq]
    simp only [List.cons_append, List.nil_append, List.append_assoc]
    rw [tokenize_space (by decide), tokenize_space (by decide), tokenize_lparen]
    rw [show ('l' :: 'a' :: 'y' :: 'e' :: 'r' :: ' ' :: '"' ::
        (s.data ++ ('"' :: ')' :: r)) : List Char) =
      ('l' :: ['a', 'y', 'e', 'r']) ++ ' ' ::
        ('"' :: (s.data ++ '"' :: ')' :: r)) from rfl]
    rw [tokenize_word 'l' ['a', 'y', 'e', 'r'] ('"' :: (s.data ++ '"' :: ')' :: r))
      (by decide) (by decide) (by decide) (by decide) (by decide) (by decide)]
    rw [tokenize_space (by decide)]
    rw [tokenize_string hq hbs (by rfl)]
    rw [tokenize_rparen]
    rfl

theorem tokenize_uuidFieldStr {o : Option String} (h : ∀ s, o = some s → canonicalStr s)
    (r : List Char) :
    tokenize ((optStrFieldStr "uuid" o).data ++ r) = optStrToks "uuid" o ++ tokenize r := by
  rcases o with _ | s
  · rfl
  · obtain ⟨hq, hbs⟩ := h s rfl
    have hdata : (optStrFieldStr "uuid" (some s)).data =
        ' ' :: ' ' :: '(' :: 'u' :: 'u' :: 'i' :: 'd' :: ' ' :: '"' ::
          ((escapeChars s.data ++ ['"']) ++ [')']) := rfl
    rw [hdata, escapeChars_clean hq]
    simp only [List.cons_append, List.nil_append, List.append_assoc]
    rw [tokenize_space (by decide), tokenize_space (by decide), tokenize_lparen]
    rw [show ('u' :: 'u' :: 'i' :: 'd' :: ' ' :: '"' ::
        (s.data ++ ('"' :: ')' :: r)) : List Char) =
      ('u' :: ['u', 'i', 'd']) ++ ' ' ::
        ('"' :: (s.data ++ '"' :: ')' :: r)) from rfl]
    rw [tokenize_word 'u' ['u', 'i', 'd'] ('"' :: (s.data ++ '"' :: ')' :: r))
      (by decide) (by decide) (by decide) (by decide) (by decide) (by decide)]
    rw [tokenize_space (by decide)]
    rw [tokenize_string hq hbs (by rfl)]
    rw [tokenize_rparen]
    rfl

/-! ## Running the parse loop over the field tokens -/

theorem runToks_lockedToks (o : Option Bool) (ts : List Tok) (stack : List (List SExp))
    (out : List SExp) :
    runToks (lockedToks o ++ ts) stack out = runToks ts stack (out ++ lockedItems o) := by
  rcases o with _ | b
  · simp [lockedToks, lockedItems]
  · exact runToks_item "locked".data (.sym (val_to_str_bool b).data) rfl ts stack out

theorem runToks_widthToks (o : Option ℚ) (ts : List Tok) (stack : List (List SExp))
    (out : List SExp) :
    runToks (widthToks o ++ ts) stack out = runToks ts stack (out ++ widthItems o) := by
  rcases o with _ | q
  · simp [widthToks, widthItems]
  · exact runToks_item "width".data (.num q) rfl ts stack out

theorem runToks_optStrToks (name : String) (o : Option String) (ts : List Tok)
    (stack : List (List SExp)) (out : List SExp) :
    runToks (optStrToks name o ++ ts) stack out =
      runToks ts stack (out ++ optStrItems name o) := by
  rcases o with _ | s
  · simp [optStrToks, optStrItems]
  · have := runToks_item name.data (.sq s.data) rfl ts stack out
    simpa [optStrToks, optStrItems] using this

/-! ## Decoding the field items -/

/-- The record update performed by the `locked` child (if present). -/
def setLocked (o : Option Bool) (obj : GrCurve) : GrCurve :=
  match o with
  | none => obj
  | some b => { obj with locked := some b }

/-- The record update performed by the `width` child (if present). -/
def setWidth (o : Option ℚ) (obj : GrCurve) : GrCurve :=
  match o with
  | none => obj
  | some q => { obj with width := some q }

/-- The record update performed by the `layer` child (if present). -/
def setLayer (o : Option String) (obj : GrCurve) : GrCurve :=
  match o with
  | none => obj
  | some s => { obj with layer := some s }

/-- The record update performed by the `uuid` child (if present). -/
def setUuid (o : Option String) (obj : GrCurve) : GrCurve :=
  match o with
  | none => obj
  | some s => { obj with uuid := some s }

theorem grCurveLoop_lockedItems (o : Option Bool) (obj : GrCurve) :
    grCurveLoop (lockedItems o) obj = some (setLocked o obj) := by
  rcases o with _ | _ | _ <;> rfl

theorem grCurveLoop_widthItems (o : Option ℚ) (obj : GrCurve) :
    grCurveLoop (widthItems o) obj = some (setWidth o obj) := by
  rcases o with _ | q
  · rfl
  · by_cases hden : q.den = 1
    · simp only [widthItems, if_pos hden]
      show (grCurveItem obj (.list [.str "width", .int q.num])).bind (grCurveLoop []) = _
      have h1 : grCurveItem obj (.list [.str "width", .int q.num]) =
          some { obj with width := some ((q.num : ℚ)) } := rfl
      have h2 : ((q.num : ℚ)) = q := by
        conv_rhs => rw [← Rat.num_div_den q]
        rw [hden]
        norm_num
      rw [h1, h2]
      rfl
    · simp only [widthItems, if_neg hden]
      rfl

theorem grCurveLoop_layerItems (o : Option String) (obj : GrCurve) :
    grCurveLoop (optStrItems "layer" o) obj = some (setLayer o obj) := by
  rcases o with _ | s <;> rfl

theorem grCurveLoop_uuidItems (o : Option String) (obj : GrCurve) :
    grCurveLoop (optStrItems "uuid" o) obj = some (setUuid o obj) := by
  rcases o with _ | s <;> rfl


/-! ## Assembling the `GrCurve` round trip -/

theorem val_to_str_float_ne_empty (q : ℚ) : val_to_str_float (.finite q) ≠ "" := by
  intro hcon
  have hd := congrArg String.data hcon
  rw [val_to_str_float_eq] at hd
  have : natChars ((rhe (q * 10 ^ 6)).natAbs / 10 ^ 6) = [] := by
    rcases List.append_eq_nil.mp (List.append_eq_nil.mp hd).1 with ⟨_, h2⟩
    exact h2
  exact natChars_ne_nil _ this

theorem widthFieldStr_data_ne (q : ℚ) : (widthFieldStr (some q)).data ≠ [] := by
  show (maybeElem (maybeNamed 1 "width" (val_to_str_float (.finite q)))).data ≠ []
  rw [maybeNamed, if_neg (val_to_str_float_ne_empty q)]
  rw [maybeElem, if_neg (by
    intro hcon
    have := congrArg String.data hcon
    simp [String.data_append] at this)]
  simp [String.data_append]

theorem optStrFieldStr_data_ne (name : String) (s : String) :
    (optStrFieldStr name (some s)).data ≠ [] := by
  show (maybeElem (maybeNamed 1 name (val_to_str_str s))).data ≠ []
  rw [maybeNamed, if_neg (by
    intro hcon
    have := congrArg String.data hcon
    simp [val_to_str_str] at this)]
  rw [maybeElem, if_neg (by
    intro hcon
    have := congrArg String.data hcon
    simp [String.data_append] at this)]
  simp [String.data_append]

theorem lockedFieldStr_data_ne (b : Bool) : (lockedFieldStr (some b)).data ≠ [] := by
  cases b <;> decide

theorem maybeNamed_zero_g_data (v : String) (hv : v ≠ "") :
    (maybeNamed 0 "g" v).data = '(' :: 'g' :: ' ' :: (v.data ++ [')']) := by
  rw [maybeNamed, if_neg hv]
  simp only [String.data_append, show ("(" : String).data = ['('] from rfl,
    show ("g" : String).data = ['g'] from rfl, show (" " : String).data = [' '] from rfl,
    show (")" : String).data = [')'] from rfl,
    show (⟨List.replicate 0 ' '⟩ : String).data = [] from rfl,
    List.replicate_zero, List.cons_append, List.nil_append, List.append_assoc]

/-- The serialized body of a canonical `GrCurve`, at the data level. -/
theorem grCurve_body_data (ol : Option Bool) (ow : Option ℚ) (olay ouuid : Option String) :
    (lockedFieldStr ol ++ ptsFieldStr [] ++ widthFieldStr ow ++ strokeFieldStr none ++
      optStrFieldStr "layer" olay ++ optStrFieldStr "uuid" ouuid).data =
    (lockedFieldStr ol).data ++ ((widthFieldStr ow).data ++
      ((optStrFieldStr "layer" olay).data ++ (optStrFieldStr "uuid" ouuid).data)) := by
  simp only [String.data_append, show (ptsFieldStr []).data = [] from rfl,
    show (strokeFieldStr none).data = [] from rfl, List.append_nil, List.nil_append,
    List.append_assoc]

/-- The full parse of the serialization of a canonical `GrCurve`. -/
theorem parse_grCurve_canonical (ol : Option Bool) (ow : Option ℚ) (olay ouuid : Option String)
    (hw : ∀ q, ow = some q → canonicalQ q)
    (hl : ∀ s, olay = some s → canonicalStr s)
    (hu : ∀ s, ouuid = some s → canonicalStr s)
    (hne : ol ≠ none ∨ ow ≠ none ∨ olay ≠ none ∨ ouuid ≠ none) :
    parse_sexp (GrCurve.to_sexpr ⟨ol, [], ow, none, olay, ouuid⟩) =
      .ok (.list (.str "g" :: (lockedItems ol ++ (widthItems ow ++
        (optStrItems "layer" olay ++ optStrItems "uuid" ouuid))))) := by
  have hbd := grCurve_body_data ol ow olay ouuid
  have hbody : (lockedFieldStr ol ++ ptsFieldStr [] ++ widthFieldStr ow ++
      strokeFieldStr none ++ optStrFieldStr "layer" olay ++
      optStrFieldStr "uuid" ouuid) ≠ "" := by
    intro hc
    have hd := congrArg String.data hc
    rw [hbd] at hd
    rcases hne with h | h | h | h
    · rcases hol : ol with _ | b
      · exact h hol
      · rw [hol] at hd
        exact lockedFieldStr_data_ne b (List.append_eq_nil.mp hd).1
    · rcases how : ow with _ | q
      · exact h how
      · rw [how] at hd
        exact widthFieldStr_data_ne q
          (List.append_eq_nil.mp (List.append_eq_nil.mp hd).2).1
    · rcases holay : olay with _ | s
      · exact h holay
      · rw [holay] at hd
        exact optStrFieldStr_data_ne "layer" s
          (List.append_eq_nil.mp (List.append_eq_nil.mp (List.append_eq_nil.mp hd).2).2).1
    · rcases houuid : ouuid with _ | s
      · exact h houuid
      · rw [houuid] at hd
        exact optStrFieldStr_data_ne "uuid" s
          (List.append_eq_nil.mp (List.append_eq_nil.mp (List.append_eq_nil.mp hd).2).2).2
  have htok : tokenize (GrCurve.to_sexpr ⟨ol, [], ow, none, olay, ouuid⟩).data =
      .lparen :: .sym ['g'] :: (lockedToks ol ++ (widthToks ow ++
        (optStrToks "layer" olay ++ (optStrToks "uuid" ouuid ++ [.rparen])))) := by
    show tokenize (maybeNamed 0 "g" _).data = _
    rw [maybeNamed_zero_g_data _ hbody, hbd]
    simp only [List.append_assoc]
    rw [tokenize_lparen]
    rw [show ∀ X : List Char, ('g' :: ' ' :: X) = (('g' :: []) ++ ' ' :: X) from fun X => rfl]
    rw [tokenize_word 'g' [] _
      (by decide) (by decide) (by decide) (by decide) (by decide) (by decide)]
    rw [tokenize_space (by decide)]
    rw [tokenize_lockedFieldStr, tokenize_widthFieldStr hw, tokenize_layerFieldStr hl,
      tokenize_uuidFieldStr hu]
    rw [tokenize_rparen, tokenize_nil]
  unfold parse_sexp
  rw [htok]
  have hrun : runToks (.lparen :: .sym ['g'] :: (lockedToks ol ++ (widthToks ow ++
      (optStrToks "layer" olay ++ (optStrToks "uuid" ouuid ++ [.rparen]))))) [] [] =
      .ok [.list (.str "g" :: (lockedItems ol ++ (widthItems ow ++
        (optStrItems "layer" olay ++ optStrItems "uuid" ouuid))))] := by
    show runToks (lockedToks ol ++ (widthToks ow ++
      (optStrToks "layer" olay ++ (optStrToks "uuid" ouuid ++ [.rparen]))))
      [[]] [.str ⟨['g']⟩] = _
    rw [runToks_lockedToks, runToks_widthToks, runToks_optStrToks, runToks_optStrToks]
    show Except.ok ([] ++ [SExp.list _]) = _
    simp [List.append_assoc]
  rw [hrun]

/-- Decoding the parse tree of a canonical `GrCurve` serialization. -/
theorem decode_grCurve_canonical (ol : Option Bool) (ow : Option ℚ)
    (olay ouuid : Option String) :
    GrCurve.from_sexpr (.list (.str "g" :: (lockedItems ol ++ (widthItems ow ++
        (optStrItems "layer" olay ++ optStrItems "uuid" ouuid))))) =
      some ⟨ol, [], ow, none, olay, ouuid⟩ := by
  show grCurveLoop (lockedItems ol ++ (widthItems ow ++
    (optStrItems "layer" olay ++ optStrItems "uuid" ouuid))) {} = _
  rw [grCurveLoop_append, grCurveLoop_lockedItems]
  show grCurveLoop (widthItems ow ++
    (optStrItems "layer" olay ++ optStrItems "uuid" ouuid)) (setLocked ol {}) = _
  rw [grCurveLoop_append, grCurveLoop_widthItems]
  show grCurveLoop (optStrItems "layer" olay ++ optStrItems "uuid" ouuid)
    (setWidth ow (setLocked ol {})) = _
  rw [grCurveLoop_append, grCurveLoop_layerItems]
  show grCurveLoop (optStrItems "uuid" ouuid)
    (setLayer olay (setWidth ow (setLocked ol {}))) = _
  rw [grCurveLoop_uuidItems]
  have : setUuid ouuid (setLayer olay (setWidth ow (setLocked ol {}))) =
      (⟨ol, [], ow, none, olay, ouuid⟩ : GrCurve) := by
    rcases ol with _ | b <;> rcases ow with _ | q <;> rcases olay with _ | s1 <;>
      rcases ouuid with _ | s2 <;> rfl
  rw [this]

/-- C1: counterexample. The all-absent record is a boundary failure of the
round trip: every field holds its (canonical) default `None`, the encoder
renders the empty string, and `parse` then fails (IndexError on `out[0]`),
so `decode(parse(print(encode(v))))` raises instead of returning `v`. -/
theorem C1_counterexample :
    GrCurve.to_sexpr {} = "" ∧
    parse_sexp (GrCurve.to_sexpr {}) = .error .noTerm ∧
    grCurveRoundTrip {} = none ∧ grCurveRoundTrip {} ≠ some {} :=
  ⟨rfl, rfl, rfl, fun hcon => Option.noConfusion hcon⟩

/-- C1 (amended): the round trip `decode(parse(print(encode(v)))) = v` holds
for every `gr_curve` record whose fields are canonical — `width` exactly
representable with six fractional decimal digits, `layer`/`uuid` free of
embedded quotes and backslashes, the out-of-scope catalog fields (`pts`,
`stroke`) absent — provided at least one field is present; the all-absent
record encodes to the empty string and fails to re-parse. -/
theorem C1_roundtrip_amended (g : GrCurve) (hpts : g.pts = []) (hstroke : g.stroke = none)
    (hw : ∀ q, g.width = some q → canonicalQ q)
    (hl : ∀ s, g.layer = some s → canonicalStr s)
    (hu : ∀ s, g.uuid = some s → canonicalStr s)
    (hne : g.locked ≠ none ∨ g.width ≠ none ∨ g.layer ≠ none ∨ g.uuid ≠ none) :
    grCurveRoundTrip g = some g := by
  obtain ⟨ol, pts, ow, ostroke, olay, ouuid⟩ := g
  change pts = [] at hpts
  change ostroke = none at hstroke
  subst hpts
  subst hstroke
  change ∀ q, ow = some q → canonicalQ q at hw
  change ∀ s, olay = some s → canonicalStr s at hl
  change ∀ s, ouuid = some s → canonicalStr s at hu
  change ol ≠ none ∨ ow ≠ none ∨ olay ≠ none ∨ ouuid ≠ none at hne
  unfold grCurveRoundTrip
  rw [parse_grCurve_canonical ol ow olay ouuid hw hl hu hne]
  exact decode_grCurve_canonical ol ow olay ouuid

/-- C1: witness instantiating the amended round trip on a concrete record
with all four scalar fields present. -/
theorem C1_witness :
    grCurveRoundTrip
      { locked := some true, width := some (1 / 2), layer := some "F.Cu",
        uuid := some "u" } =
      some
        { locked := some true, width := some (1 / 2), layer := some "F.Cu",
          uuid := some "u" } :=
  C1_roundtrip_amended _ rfl rfl
    (fun q hq => by
      injection hq with h
      exact ⟨500000, by rw [← h]; norm_num⟩)
    (fun s hs => by
      injection hs with h
      rw [← h]
      exact ⟨by decide, by decide⟩)
    (fun s hs => by
      injection hs with h
      rw [← h]
      exact ⟨by decide, by decide⟩)
    (Or.inl (by simp))

end Kiutils
